import Mathlib

/-!
FancyTabBar: index model, layout and interaction handlers.

A shallow embedding of `FancyTabBar` (src/fancytabwidget.h, src/fancytabwidget.cpp).

* C++ `int` values are mathematical integers (`Int`).  The products and sums the
  handlers form are bounded by the widget height or by the number of tabs, far
  below `2^31`, so they are exact; for `tabRect` called with an arbitrary
  argument, `tabRectChecked` carries the product wrapped to 32 bits.
* `QWidget::height()` and `QFontMetrics::height()` are supplied by Qt and are
  never negative; they are natural numbers here.
* Every handler returns the new bar together with the calls it issued on its
  collaborators, in program order (`Call`).
* A handler returns `none` when the C++ run has no defined result: a failed
  `Q_ASSERT` in a build that keeps assertions, or a `QList` access outside the
  list.
-/

namespace Fancy

/-! ## Qt value types -/

/-- The mouse buttons the press handler tells apart; `OtherButton` stands for
every button that is neither left nor right. -/
inductive MouseButton where
  | LeftButton
  | RightButton
  | OtherButton
  deriving DecidableEq

/-- A `QPoint`. -/
structure QPoint where
  x : Int
  y : Int
  deriving DecidableEq

/-- A `QSize`. -/
structure QSize where
  width : Int
  height : Int
  deriving DecidableEq

/-- A `QRect` as built by `QRect(x, y, width, height)`; Qt stores the corners
`x1 = x`, `y1 = y`, `x2 = x + width - 1`, `y2 = y + height - 1`. -/
structure QRect where
  x : Int
  y : Int
  width : Int
  height : Int
  deriving DecidableEq

/-- The value of `QRect()`: a null rectangle. -/
def QRect.null : QRect := ⟨0, 0, 0, 0⟩

/-- The result of `QRect::right()`, the stored corner `x2`. -/
def QRect.right (r : QRect) : Int := r.x + r.width - 1

/-- The result of `QRect::bottom()`, the stored corner `y2`. -/
def QRect.bottom (r : QRect) : Int := r.y + r.height - 1

/-- The test `QRect::contains(const QPoint&)` of Qt (edges included): each axis is
normalised when `x2 < x1 - 1`, then the point is compared with both ends. -/
def QRect.contains (r : QRect) (p : QPoint) : Bool :=
  let l := if r.right < r.x - 1 then r.right else r.x
  let rr := if r.right < r.x - 1 then r.x else r.right
  let t := if r.bottom < r.y - 1 then r.bottom else r.y
  let b := if r.bottom < r.y - 1 then r.y else r.bottom
  if p.x < l || p.x > rr then false
  else if p.y < t || p.y > b then false
  else true

/-- The part of a `QMouseEvent` the handlers read. -/
structure QMouseEvent where
  pos : QPoint
  button : MouseButton
  deriving DecidableEq

/-! ## Data model -/

/-- One `FancyTab`.  The icon is an opaque handle.  The three `anim` fields are
the duration, end value and running state of `m_animator`; `m_fader` itself is
advanced by the animation engine and is read by no handler below. -/
structure FancyTab where
  icon : Nat
  text : String
  toolTip : String
  enabled : Bool
  visible : Bool
  hasMenu : Bool
  animDuration : Int
  animEndValue : Option Int
  animRunning : Bool
  deriving DecidableEq

/-- The state of a `FancyTabBar`: its private members and the widget height. -/
structure FancyTabBar where
  m_hoverRect : QRect
  m_hoverIndex : Int
  m_currentIndex : Int
  m_iconsOnly : Bool
  m_tabs : List FancyTab
  height : Nat
  deriving DecidableEq

/-- The font measurements `tabSizeHint` asks `QFontMetrics` for. -/
structure FontMetrics where
  height : Nat
  horizontalAdvance : String → Int

/-- What the bar is compiled and run with: whether `Q_ASSERT` is kept (it expands
to nothing under `QT_NO_DEBUG`), and the metrics of the default font. -/
structure Env where
  assertsKept : Bool
  fm : FontMetrics

/-- A call issued by a handler: one of the three signals, a repaint or geometry
request on the widget, or a fade request on the tab at a logical index. -/
inductive Call where
  | currentAboutToChange (index : Int)
  | currentChanged (index : Int)
  | menuTriggered (index : Int) (event : QMouseEvent)
  | update
  | updateRect (r : QRect)
  | updateGeometry
  | fadeIn (index : Int)
  | fadeOut (index : Int)
  deriving DecidableEq

/-- Whether a call is the emission of a signal. -/
def Call.isSignal : Call → Bool
  | .currentAboutToChange _ => true
  | .currentChanged _ => true
  | .menuTriggered _ _ => true
  | _ => false

/-- The signals of a trace, in order. -/
def signalsOf (trace : List Call) : List Call := trace.filter Call.isSignal

/-- The fade requests of a trace, in order. -/
def fadesOf (trace : List Call) : List Call :=
  trace.filter fun c => match c with
    | .fadeIn _ => true
    | .fadeOut _ => true
    | _ => false

/-- A handler result: the bar afterwards and the calls issued, or `none` when the
run has no defined result. -/
abbrev Outcome := Option (FancyTabBar × List Call)

/-- The bar right after `FancyTabBar::FancyTabBar`, at a given widget height. -/
def emptyBar (height : Nat) : FancyTabBar :=
  { m_hoverRect := QRect.null, m_hoverIndex := -1, m_currentIndex := -1,
    m_iconsOnly := false, m_tabs := [], height := height }

/-! ## Constants -/

def kMenuButtonWidth : Int := 16

def MODEBAR_ICON_SIZE : Int := 34

def MODEBAR_ICONSONLY_BUTTON_SIZE : Int := MODEBAR_ICON_SIZE + 4

/-! ## Accessors -/

/-- The value of `count()`: `m_tabs.count()`. -/
def FancyTabBar.count (s : FancyTabBar) : Int := s.m_tabs.length

/-- The test `validIndex(index)`. -/
def FancyTabBar.validIndex (s : FancyTabBar) (index : Int) : Bool :=
  decide (index ≥ 0) && decide (index < s.count)

/-- The tab `m_tabs.at(index)`, when the index is inside the list. -/
def FancyTabBar.tabAt (s : FancyTabBar) (index : Int) : Option FancyTab :=
  if 0 ≤ index then s.m_tabs[index.toNat]? else none

/-- The body of `FancyTab::fadeIn`: stop, 80 ms, end value 1, start. -/
def FancyTab.fadeIn (t : FancyTab) : FancyTab :=
  { t with animDuration := 80, animEndValue := some 1, animRunning := true }

/-- The body of `FancyTab::fadeOut`: stop, 160 ms, end value 0, start. -/
def FancyTab.fadeOut (t : FancyTab) : FancyTab :=
  { t with animDuration := 160, animEndValue := some 0, animRunning := true }

/-- The list with `f` applied to the tab at a logical index inside the list. -/
def modifyTab (f : FancyTab → FancyTab) (tabs : List FancyTab) (index : Int) : List FancyTab :=
  if 0 ≤ index then
    match tabs[index.toNat]? with
    | some t => tabs.set index.toNat (f t)
    | none => tabs
  else tabs

/-! ## Layout -/

/-- The loop of `tabSizeHint` over the labels: the largest measured width, from 0. -/
def maxLabelwidth (fm : FontMetrics) (tabs : List FancyTab) : Int :=
  tabs.foldl (fun m tab => if fm.horizontalAdvance tab.text > m then fm.horizontalAdvance tab.text else m) 0

/-- The function `tabSizeHint(minimum)`. -/
def tabSizeHint (fm : FontMetrics) (s : FancyTabBar) (minimum : Bool) : QSize :=
  if s.m_iconsOnly then
    { width := MODEBAR_ICONSONLY_BUTTON_SIZE,
      height := Int.tdiv MODEBAR_ICONSONLY_BUTTON_SIZE (if minimum then 3 else 1) }
  else
    let spacing : Int := 8
    let width : Int := 60 + spacing + 2
    let iconHeight : Int := if minimum then 0 else 32
    { width := max width (maxLabelwidth fm s.m_tabs + 4),
      height := iconHeight + spacing + fm.height }

/-- The function `tabRect(visibleIndex)`: the preferred tab size, its height replaced
by `height() / m_tabs.count()` when `sh.height() * m_tabs.count() > height()`.
The product `visibleIndex * sh.height()` is the exact one: for the slots the
handlers pass (`0 <= visibleIndex <= count`) it lies within `[0, height()]`
(`tabRect_slot_within_height`), so the C++ `int` product cannot overflow there;
`tabRectChecked` carries the wrapped product for arbitrary arguments. -/
def tabRect (fm : FontMetrics) (s : FancyTabBar) (visibleIndex : Int) : QRect :=
  let sh := tabSizeHint fm s false
  let h := if sh.height * s.count > s.height then Int.tdiv s.height s.count else sh.height
  { x := 0, y := visibleIndex * h, width := sh.width, height := h }

/-- The function `sizeHint()`. -/
def sizeHint (fm : FontMetrics) (s : FancyTabBar) : QSize :=
  let sh := tabSizeHint fm s false
  { width := sh.width, height := sh.height * s.count }

/-- The function `minimumSizeHint()`. -/
def minimumSizeHint (fm : FontMetrics) (s : FancyTabBar) : QSize :=
  let sh := tabSizeHint fm s true
  { width := sh.width, height := sh.height * s.count }

/-- The value a C++ `int` computation leaves when its exact result is `x`: `x`
itself inside `[-2^31, 2^31)`, and `x` wrapped modulo `2^32` into that range
outside of it. -/
def wrapInt32 (x : Int) : Int := (x + 2147483648) % 4294967296 - 2147483648

/-- The function `tabRect(visibleIndex)` for an arbitrary argument, run with
`height()` equal to `height`: the division is kept apart (`none` when
`height() / m_tabs.count()` is evaluated with `m_tabs.count() == 0`), and the `int`
product `visibleIndex * sh.height()` is the wrapped one. -/
def tabRectChecked (fm : FontMetrics) (s : FancyTabBar) (height : Int) (visibleIndex : Int) :
    Option QRect :=
  let sh := tabSizeHint fm s false
  if sh.height * s.count > height then
    if s.count = 0 then none
    else some { x := 0, y := wrapInt32 (visibleIndex * Int.tdiv height s.count),
                width := sh.width, height := Int.tdiv height s.count }
  else some { x := 0, y := wrapInt32 (visibleIndex * sh.height), width := sh.width,
              height := sh.height }

/-! ## Index mapping -/

/-- The loop of `visibleIndex(index)` from position `i` on with counter `vIndex`. -/
def visibleIndexLoop (index : Int) : List FancyTab → Int → Int → Int
  | [], _, vIndex => vIndex
  | tab :: rest, i, vIndex =>
    if i = index then vIndex
    else visibleIndexLoop index rest (i + 1) (if tab.visible then vIndex + 1 else vIndex)

/-- The function `visibleIndex(index)`. -/
def visibleIndex (s : FancyTabBar) (index : Int) : Int :=
  visibleIndexLoop index s.m_tabs 0 0

/-- The skip-hidden forward walk shared by `mousePressEvent` and `mouseMoveEvent`:
from logical position `index` with counter `visibleIndex`, hidden tabs are
passed over, the first visible tab whose `visibleIndex` satisfies `hit` stops the
walk, any other visible tab advances the counter.  The result is the logical
index where the walk stopped (`none` when it ran off the list) and the value of
the counter when the loop was left. -/
def hitLoop (hit : Int → Bool) : List FancyTab → Int → Int → Option Int × Int
  | [], _, visibleIndex => (none, visibleIndex)
  | tab :: rest, index, visibleIndex =>
    if !tab.visible then hitLoop hit rest (index + 1) visibleIndex
    else if hit visibleIndex then (some index, visibleIndex)
    else hitLoop hit rest (index + 1) (visibleIndex + 1)

/-- The walk as the handlers run it: the first visible tab whose rectangle
contains the position. -/
def hitTest (fm : FontMetrics) (s : FancyTabBar) (pos : QPoint) : Option Int × Int :=
  hitLoop (fun v => (tabRect fm s v).contains pos) s.m_tabs 0 0

/-- The logical index the walk reaches at visible position `v`. -/
def logicalIndexAt (s : FancyTabBar) (v : Int) : Option Int :=
  (hitLoop (fun k => k == v) s.m_tabs 0 0).1

/-- The number of tabs with `visible == true`. -/
def visibleCount (tabs : List FancyTab) : Int :=
  (tabs.filter fun tab => tab.visible).length

/-! ## Selection -/

/-- The function `isTabEnabled(index)`: both `Q_ASSERT`s first, then the guarded
read, `false` outside the list. -/
def isTabEnabled (env : Env) (s : FancyTabBar) (index : Int) : Option Bool :=
  if env.assertsKept && !(decide (index < s.count) && decide (index ≥ 0)) then none
  else if index < s.count ∧ index ≥ 0 then (s.tabAt index).map fun tab => tab.enabled
  else some false

/-- The calls of a committed selection change, shared verbatim by
`setCurrentIndex` and the click branch of `mousePressEvent`. -/
def commitTrace (index : Int) : List Call :=
  [.currentAboutToChange index, .update, .currentChanged index]

/-- The function `setCurrentIndex(index)`.  The test `index == -1` short-circuits
the call of `isTabEnabled`. -/
def setCurrentIndex (env : Env) (index : Int) (s : FancyTabBar) : Outcome :=
  let body (allowed : Bool) : Outcome :=
    if allowed && index != s.m_currentIndex then
      some ({ s with m_currentIndex := index }, commitTrace index)
    else some (s, [])
  if index = -1 then body true
  else match isTabEnabled env s index with
    | none => none
    | some enabled => body enabled

/-! ## Pointer handlers -/

/-- The function `mousePressEvent(event)`: the loop is the walk `hitTest`, the
body below is what the loop runs at the tab it stops at, and the last branch is
the code after the loop.  The call `event->accept()` changes the event only. -/
def mousePressEvent (env : Env) (event : QMouseEvent) (s : FancyTabBar) : Outcome :=
  match hitTest env.fm s event.pos with
  | (some index, visibleIndex) =>
    let rect := tabRect env.fm s visibleIndex
    match isTabEnabled env s index, s.tabAt index with
    | some enabled, some tab =>
      if enabled && event.button == .LeftButton then
        if tab.hasMenu && (!s.m_iconsOnly && decide (rect.right - event.pos.x ≤ kMenuButtonWidth)) then
          some (s, [.menuTriggered index event])
        else if index != s.m_currentIndex then
          some ({ s with m_currentIndex := index }, commitTrace index)
        else some (s, [])
      else if event.button == .RightButton then some (s, [.menuTriggered index event])
      else some (s, [])
    | _, _ => none
  | (none, _) =>
    if event.button == .RightButton then some (s, [.menuTriggered (-1) event])
    else some (s, [])

/-- The function `mouseMoveEvent(event)` at pointer position `pos`. -/
def mouseMoveEvent (env : Env) (pos : QPoint) (s : FancyTabBar) : FancyTabBar × List Call :=
  let walk := hitTest env.fm s pos
  let newHover : Int := walk.1.getD (-1)
  let visibleIndex := walk.2
  if newHover = s.m_hoverIndex then (s, [])
  else
    let out : List FancyTab × List Call :=
      if s.validIndex s.m_hoverIndex then
        (modifyTab FancyTab.fadeOut s.m_tabs s.m_hoverIndex, [.fadeOut s.m_hoverIndex])
      else (s.m_tabs, [])
    let s1 : FancyTabBar := { s with m_tabs := out.1, m_hoverIndex := newHover }
    if s1.validIndex s1.m_hoverIndex then
      let s2 : FancyTabBar := { s1 with m_tabs := modifyTab FancyTab.fadeIn s1.m_tabs s1.m_hoverIndex }
      ({ s2 with m_hoverRect := tabRect env.fm s2 visibleIndex }, out.2 ++ [.fadeIn s1.m_hoverIndex])
    else (s1, out.2)

/-- The function `enterEvent`. -/
def enterEvent (s : FancyTabBar) : FancyTabBar × List Call :=
  ({ s with m_hoverRect := QRect.null, m_hoverIndex := -1 }, [])

/-- The function `leaveEvent`: every tab is faded out, in list order. -/
def leaveEvent (s : FancyTabBar) : FancyTabBar × List Call :=
  ({ s with m_hoverIndex := -1, m_hoverRect := QRect.null, m_tabs := s.m_tabs.map FancyTab.fadeOut },
   (List.range s.m_tabs.length).map fun i => Call.fadeOut i)

/-! ## Mutators -/

/-- The function `setTabEnabled(index, enable)`. -/
def setTabEnabled (env : Env) (index : Int) (enable : Bool) (s : FancyTabBar) : Outcome :=
  if env.assertsKept && !(decide (index < s.count) && decide (index ≥ 0)) then none
  else if index < s.count ∧ index ≥ 0 then
    let s1 : FancyTabBar :=
      { s with m_tabs := modifyTab (fun tab => { tab with enabled := enable }) s.m_tabs index }
    match s1.tabAt index with
    | some tab =>
      if tab.visible then some (s1, [.updateRect (tabRect env.fm s1 (visibleIndex s1 index))])
      else some (s1, [])
    | none => none
  else some (s, [])

/-- The function `setTabVisible(index, visible)`.  Outside the list the `Q_ASSERT`
fails, or, with assertions compiled out, `m_tabs[index]` reads past the list:
no defined result either way. -/
def setTabVisible (index : Int) (visible : Bool) (s : FancyTabBar) : Outcome :=
  if index < s.count ∧ index ≥ 0 then
    some ({ s with m_tabs := modifyTab (fun tab => { tab with visible := visible }) s.m_tabs index },
          [.update])
  else none

/-- The tab `insertTab` builds: the member initialisers of `FancyTab`, a fresh
`QPropertyAnimation` (250 ms, no end value, stopped), then the four assignments. -/
def newTab (icon : Nat) (label : String) (hasMenu : Bool) : FancyTab :=
  { icon := icon, text := label, toolTip := "", enabled := true, visible := true,
    hasMenu := hasMenu, animDuration := 250, animEndValue := none, animRunning := false }

/-- The function `insertTab(index, icon, label, hasMenu)`; `QList::insert` is
defined for `0 <= index <= size`. -/
def insertTab (index : Int) (icon : Nat) (label : String) (hasMenu : Bool)
    (s : FancyTabBar) : Outcome :=
  if 0 ≤ index ∧ index ≤ s.count then
    some ({ s with
            m_tabs := s.m_tabs.take index.toNat ++ newTab icon label hasMenu :: s.m_tabs.drop index.toNat,
            m_currentIndex := if s.m_currentIndex ≥ index then s.m_currentIndex + 1 else s.m_currentIndex },
          [.updateGeometry])
  else none

/-- The function `removeTab(index)`; `QList::takeAt` is defined for
`0 <= index < size`. -/
def removeTab (index : Int) (s : FancyTabBar) : Outcome :=
  if 0 ≤ index ∧ index < s.count then
    some ({ s with m_tabs := s.m_tabs.eraseIdx index.toNat }, [.updateGeometry])
  else none

/-- The function `setIconsOnly(iconsOnly)`. -/
def setIconsOnly (iconsOnly : Bool) (s : FancyTabBar) : FancyTabBar × List Call :=
  ({ s with m_iconsOnly := iconsOnly }, [.updateGeometry])

/-! ## Painting -/

/-- One call `paintTab(painter, tabIndex, visibleIndex, iconState)`; `iconOn` is
true for `QIcon::On` and false for `QIcon::Off`. -/
structure PaintCall where
  tabIndex : Int
  visibleIndex : Int
  iconOn : Bool
  deriving DecidableEq

/-- The loop of `paintEvent` from logical position `i` with the counters
`visibleIndex` and `visibleCurrentIndex`: the `paintTab` calls it issues, in
order, and the value of `visibleCurrentIndex` when it ends. -/
def paintLoop (currentIndex : Int) : List FancyTab → Int → Int → Int → List PaintCall × Int
  | [], _, _, visibleCurrentIndex => ([], visibleCurrentIndex)
  | tab :: rest, i, visibleIndex, visibleCurrentIndex =>
    if !tab.visible then paintLoop currentIndex rest (i + 1) visibleIndex visibleCurrentIndex
    else if i != currentIndex then
      let later := paintLoop currentIndex rest (i + 1) (visibleIndex + 1) visibleCurrentIndex
      ({ tabIndex := i, visibleIndex := visibleIndex, iconOn := false } :: later.1, later.2)
    else paintLoop currentIndex rest (i + 1) (visibleIndex + 1) visibleIndex

/-- The `paintTab` calls of one `paintEvent`, in order: those of the loop, then
the call for the current tab when `currentIndex() != -1`. -/
def paintEvent (s : FancyTabBar) : List PaintCall :=
  let loop := paintLoop s.m_currentIndex s.m_tabs 0 0 (-1)
  if s.m_currentIndex != -1 then
    loop.1 ++ [{ tabIndex := s.m_currentIndex, visibleIndex := loop.2, iconOn := true }]
  else loop.1

/-- The rectangle a `paintTab` call draws into: `none` when the call leaves at
its `validIndex` guard (after `qWarning`), else `tabRect(visibleIndex)`. -/
def paintTabRect (fm : FontMetrics) (s : FancyTabBar) (call : PaintCall) : Option QRect :=
  if !s.validIndex call.tabIndex then none
  else some (tabRect fm s call.visibleIndex)

/-! ## Runs of public operations -/

/-- One public operation of the bar, or the layout giving the widget a new height. -/
inductive Op where
  | insertTab (index : Int) (icon : Nat) (label : String) (hasMenu : Bool)
  | removeTab (index : Int)
  | setTabEnabled (index : Int) (enable : Bool)
  | setTabVisible (index : Int) (visible : Bool)
  | setCurrentIndex (index : Int)
  | setIconsOnly (iconsOnly : Bool)
  | mousePress (event : QMouseEvent)
  | mouseMove (pos : QPoint)
  | enter
  | leave
  | resize (height : Nat)
  deriving DecidableEq

/-- The effect of one operation. -/
def applyOp (env : Env) (op : Op) (s : FancyTabBar) : Outcome :=
  match op with
  | .insertTab index icon label hasMenu => insertTab index icon label hasMenu s
  | .removeTab index => removeTab index s
  | .setTabEnabled index enable => setTabEnabled env index enable s
  | .setTabVisible index visible => setTabVisible index visible s
  | .setCurrentIndex index => setCurrentIndex env index s
  | .setIconsOnly iconsOnly => some (setIconsOnly iconsOnly s)
  | .mousePress event => mousePressEvent env event s
  | .mouseMove pos => some (mouseMoveEvent env pos s)
  | .enter => some (enterEvent s)
  | .leave => some (leaveEvent s)
  | .resize height => some ({ s with height := height }, [])

/-- The bar after a sequence of operations, when every one of them has a defined
result. -/
def runOps (env : Env) : List Op → FancyTabBar → Option FancyTabBar
  | [], s => some s
  | op :: ops, s =>
    match applyOp env op s with
    | some (s1, _) => runOps env ops s1
    | none => none

/-- The bar after a sequence of operations each of which is `allowed` in the
state it is applied to and has a defined result. -/
def runOpsWhere (env : Env) (allowed : FancyTabBar → Op → Bool) :
    List Op → FancyTabBar → Option FancyTabBar
  | [], s => some s
  | op :: ops, s =>
    if allowed s op then
      match applyOp env op s with
      | some (s1, _) => runOpsWhere env allowed ops s1
      | none => none
    else none

/-- Whether `currentIndex` is -1 or the index of an existing tab whose `enabled`
flag is true. -/
def currentIsNoneOrEnabled (s : FancyTabBar) : Bool :=
  s.m_currentIndex == -1 ||
    match s.tabAt s.m_currentIndex with
    | some tab => tab.enabled
    | none => false

/-- Whether an index is -1 or inside `[0, count)`. -/
def noneOrValid (s : FancyTabBar) (index : Int) : Bool :=
  index == -1 || s.validIndex index

/-- The operations considered for the selection invariant: every operation
except disabling the tab that is current and except removing a tab at or before
the current one (`removeTab(index)` is kept when nothing is selected or
`index > currentIndex`). -/
def keepsSelectionEnabled (s : FancyTabBar) : Op → Bool
  | .removeTab index => s.m_currentIndex == -1 || decide (index > s.m_currentIndex)
  | .setTabEnabled index enable => enable || index != s.m_currentIndex
  | _ => true

/-! ## Worked examples -/

/-- Font measurements for the examples: lines 12 px high, 7 px a character. -/
def demoFm : FontMetrics := { height := 12, horizontalAdvance := fun str => 7 * str.length }

/-- A build that keeps `Q_ASSERT`. -/
def debugEnv : Env := { assertsKept := true, fm := demoFm }

/-- A build under `QT_NO_DEBUG`. -/
def releaseEnv : Env := { assertsKept := false, fm := demoFm }

/-- The bar of the scenarios: "Build" (with a menu), "Debug", "Help", icons and
text, nothing selected, `height` px high. -/
def demoBar (height : Nat) : FancyTabBar :=
  { m_hoverRect := QRect.null, m_hoverIndex := -1, m_currentIndex := -1, m_iconsOnly := false,
    m_tabs := [newTab 0 "Build" true, newTab 1 "Debug" false, newTab 2 "Help" false],
    height := height }

/-- The scenario bar with "Debug" hidden. -/
def hiddenDebugBar (height : Nat) : FancyTabBar :=
  { demoBar height with
    m_tabs := [newTab 0 "Build" true, { newTab 1 "Debug" false with visible := false },
               newTab 2 "Help" false] }

/-- The scenario bar with "Debug" current and hidden: the state after
`setCurrentIndex(1)` and `setTabVisible(1, false)`. -/
def hiddenCurrentBar (height : Nat) : FancyTabBar :=
  { hiddenDebugBar height with m_currentIndex := 1 }

/-- The scenario bar with "Debug" current. -/
def debugCurrentBar (height : Nat) : FancyTabBar :=
  { demoBar height with m_currentIndex := 1 }

/-- A run for the selection invariant: two inserts, a click on the second tab,
disabling and hiding the first tab, an insert in front, a hover and a leave, then
an insert and a removal behind the current tab. -/
def selectionRun : List Op :=
  [.insertTab 0 0 "Build" true, .insertTab 1 1 "Debug" false,
   .mousePress ⟨⟨5, 60⟩, .LeftButton⟩, .setTabEnabled 0 false, .setTabVisible 0 false,
   .insertTab 0 2 "Help" false, .mouseMove ⟨5, 60⟩, .leave,
   .insertTab 3 3 "Edit" false, .removeTab 3]

/-! ## Lemmas on the index walks -/

theorem visibleCount_nil : visibleCount [] = 0 := rfl

theorem visibleCount_cons (tab : FancyTab) (rest : List FancyTab) :
    visibleCount (tab :: rest) = (if tab.visible then 1 else 0) + visibleCount rest := by
  unfold visibleCount
  by_cases h : tab.visible = true
  · simp [List.filter_cons, h]; ring
  · simp [List.filter_cons, h]

theorem visibleCount_nonneg (tabs : List FancyTab) : 0 ≤ visibleCount tabs := by
  unfold visibleCount; exact Int.ofNat_nonneg _

theorem visibleIndexLoop_take (tabs : List FancyTab) :
    ∀ (i0 v0 : Int) (k : Nat), k ≤ tabs.length →
      visibleIndexLoop (i0 + k) tabs i0 v0 = v0 + visibleCount (tabs.take k) := by
  induction tabs with
  | nil =>
    intro i0 v0 k hk
    have : k = 0 := by simpa using hk
    subst this
    simp [visibleIndexLoop, visibleCount_nil]
  | cons tab rest ih =>
    intro i0 v0 k hk
    cases k with
    | zero => simp [visibleIndexLoop, visibleCount_nil]
    | succ k =>
      have hk1 : k ≤ rest.length := by simpa using hk
      have hne : ¬ (i0 = i0 + ((k + 1 : Nat) : Int)) := by push_cast; omega
      have hidx : i0 + ((k + 1 : Nat) : Int) = (i0 + 1) + (k : Int) := by push_cast; ring
      rw [visibleIndexLoop, if_neg hne, hidx, ih _ _ k hk1, List.take_succ_cons, visibleCount_cons]
      split <;> ring

theorem visibleIndex_eq (s : FancyTabBar) (k : Nat) (hk : k ≤ s.m_tabs.length) :
    visibleIndex s k = visibleCount (s.m_tabs.take k) := by
  have := visibleIndexLoop_take s.m_tabs 0 0 k hk
  simpa [visibleIndex] using this

/-- Completeness of the walk. -/
theorem hitLoop_first (hit : Int → Bool) (tabs : List FancyTab) :
    ∀ (i0 v0 : Int) (k : Nat) (tab : FancyTab), tabs[k]? = some tab → tab.visible = true →
      hit (v0 + visibleCount (tabs.take k)) = true →
      (∀ (j : Nat) (tj : FancyTab), j < k → tabs[j]? = some tj → tj.visible = true →
        hit (v0 + visibleCount (tabs.take j)) = false) →
      hitLoop hit tabs i0 v0 = (some (i0 + k), v0 + visibleCount (tabs.take k)) := by
  induction tabs with
  | nil => intro i0 v0 k tab h; simp at h
  | cons t rest ih =>
    intro i0 v0 k tab hk hvis hhit hmiss
    cases k with
    | zero =>
      simp at hk
      subst hk
      simp [visibleCount_nil] at hhit
      simp [hitLoop, hvis, hhit, visibleCount_nil]
    | succ k =>
      simp only [List.getElem?_cons_succ] at hk
      have hidx : i0 + ((k + 1 : Nat) : Int) = (i0 + 1) + (k : Int) := by push_cast; ring
      by_cases htv : t.visible = true
      · have h0 := hmiss 0 t (Nat.succ_pos k) (by simp) htv
        simp [visibleCount_nil] at h0
        have hv : v0 + visibleCount (List.take (k + 1) (t :: rest))
            = (v0 + 1) + visibleCount (rest.take k) := by
          rw [List.take_succ_cons, visibleCount_cons, if_pos htv]; ring
        rw [hitLoop]
        simp only [htv, h0, Bool.not_true, Bool.false_eq_true, if_false]
        rw [hv, hidx]
        apply ih (i0 + 1) (v0 + 1) k tab hk hvis
        · rw [← hv]; exact hhit
        · intro j tj hj hjt hjv
          have := hmiss (j + 1) tj (Nat.succ_lt_succ hj) (by simpa using hjt) hjv
          rw [List.take_succ_cons, visibleCount_cons, if_pos htv] at this
          rw [← this]; congr 1; ring
      · have hv : v0 + visibleCount (List.take (k + 1) (t :: rest))
            = v0 + visibleCount (rest.take k) := by
          rw [List.take_succ_cons, visibleCount_cons, if_neg htv]; ring
        rw [hitLoop]
        simp only [htv, Bool.not_false, if_true]
        rw [hv, hidx]
        apply ih (i0 + 1) v0 k tab hk hvis
        · rw [← hv]; exact hhit
        · intro j tj hj hjt hjv
          have := hmiss (j + 1) tj (Nat.succ_lt_succ hj) (by simpa using hjt) hjv
          rw [List.take_succ_cons, visibleCount_cons, if_neg htv] at this
          rw [← this]; congr 1; ring

/-- The walk runs off the list when every visible tab misses. -/
theorem hitLoop_none (hit : Int → Bool) (tabs : List FancyTab) :
    ∀ (i0 v0 : Int),
      (∀ (j : Nat) (tj : FancyTab), tabs[j]? = some tj → tj.visible = true →
        hit (v0 + visibleCount (tabs.take j)) = false) →
      hitLoop hit tabs i0 v0 = (none, v0 + visibleCount tabs) := by
  induction tabs with
  | nil => intro i0 v0 _; simp [hitLoop, visibleCount_nil]
  | cons t rest ih =>
    intro i0 v0 hmiss
    by_cases htv : t.visible = true
    · have h0 := hmiss 0 t (by simp) htv
      simp [visibleCount_nil] at h0
      rw [hitLoop]
      simp only [htv, h0, Bool.not_true, Bool.false_eq_true, if_false]
      rw [ih (i0 + 1) (v0 + 1), visibleCount_cons, if_pos htv]
      · congr 1; ring
      · intro j tj hjt hjv
        have := hmiss (j + 1) tj (by simpa using hjt) hjv
        rw [List.take_succ_cons, visibleCount_cons, if_pos htv] at this
        rw [← this]; congr 1; ring
    · rw [hitLoop]
      simp only [htv, Bool.not_false, if_true]
      rw [ih (i0 + 1) v0, visibleCount_cons, if_neg htv]
      · congr 1; ring
      · intro j tj hjt hjv
        have := hmiss (j + 1) tj (by simpa using hjt) hjv
        rw [List.take_succ_cons, visibleCount_cons, if_neg htv] at this
        rw [← this]; congr 1; ring

theorem visibleCount_take_lt (tabs : List FancyTab) :
    ∀ (j k : Nat) (tj : FancyTab), j < k → tabs[j]? = some tj → tj.visible = true →
      visibleCount (tabs.take j) + 1 ≤ visibleCount (tabs.take k) := by
  induction tabs with
  | nil => intro j k tj _ h; simp at h
  | cons t rest ih =>
    intro j k tj hjk hj hv
    obtain ⟨k, rfl⟩ : ∃ k', k = k' + 1 := ⟨k - 1, by omega⟩
    cases j with
    | zero =>
      simp at hj
      subst hj
      rw [List.take_succ_cons, visibleCount_cons, if_pos hv]
      have := visibleCount_nonneg (rest.take k)
      simp [visibleCount_nil]
      omega
    | succ j =>
      simp only [List.getElem?_cons_succ] at hj
      have := ih j k tj (by omega) hj hv
      rw [List.take_succ_cons, List.take_succ_cons, visibleCount_cons, visibleCount_cons]
      omega

/-- Existence: the walk for visible position `v` stops at a visible tab with
`v` visible tabs before it. -/
theorem hitLoop_eq_exists (v : Int) (tabs : List FancyTab) :
    ∀ (i0 v0 : Int), v0 ≤ v → v < v0 + visibleCount tabs →
      ∃ (k : Nat) (tab : FancyTab), tabs[k]? = some tab ∧ tab.visible = true ∧
        v0 + visibleCount (tabs.take k) = v ∧
        hitLoop (fun c => c == v) tabs i0 v0 = (some (i0 + k), v) := by
  induction tabs with
  | nil => intro i0 v0 h1 h2; simp [visibleCount_nil] at h2; omega
  | cons t rest ih =>
    intro i0 v0 h1 h2
    rw [visibleCount_cons] at h2
    by_cases htv : t.visible = true
    · rw [if_pos htv] at h2
      by_cases hv : v0 = v
      · refine ⟨0, t, by simp, htv, by simp [visibleCount_nil, hv], ?_⟩
        simp [hitLoop, htv, hv]
      · obtain ⟨k, tab, hk, hvis, hcnt, hloop⟩ := ih (i0 + 1) (v0 + 1) (by omega) (by omega)
        refine ⟨k + 1, tab, by simpa using hk, hvis, ?_, ?_⟩
        · rw [List.take_succ_cons, visibleCount_cons, if_pos htv]; omega
        · rw [hitLoop]
          simp only [htv, Bool.not_true, Bool.false_eq_true, if_false, beq_iff_eq, hv]
          rw [hloop]; congr 2; push_cast; ring
    · rw [if_neg htv] at h2
      obtain ⟨k, tab, hk, hvis, hcnt, hloop⟩ := ih (i0 + 1) v0 h1 (by omega)
      refine ⟨k + 1, tab, by simpa using hk, hvis, ?_, ?_⟩
      · rw [List.take_succ_cons, visibleCount_cons, if_neg htv]; omega
      · rw [hitLoop]
        simp only [htv, Bool.not_false, if_true]
        rw [hloop]; congr 2; push_cast; ring

theorem tabAt_some (s : FancyTabBar) (i : Int) (tab : FancyTab) (h : s.tabAt i = some tab) :
    ∃ k : Nat, i = k ∧ s.m_tabs[k]? = some tab ∧ k < s.m_tabs.length := by
  unfold FancyTabBar.tabAt at h
  split at h
  · rename_i h0
    refine ⟨i.toNat, (Int.toNat_of_nonneg h0).symm, h, ?_⟩
    exact (List.getElem?_eq_some_iff.mp h).1
  · simp at h

/-! ## Lemmas on the layout -/

theorem tabSizeHint_height_nonneg (fm : FontMetrics) (s : FancyTabBar) :
    0 ≤ (tabSizeHint fm s false).height := by
  unfold tabSizeHint
  split
  · decide
  · simp only [Bool.false_eq_true, if_false]; positivity

theorem tabSizeHint_width_pos (fm : FontMetrics) (s : FancyTabBar) (m : Bool) :
    0 < (tabSizeHint fm s m).width := by
  unfold tabSizeHint
  split
  · show (0 : Int) < MODEBAR_ICONSONLY_BUTTON_SIZE
    decide
  · simp only
    have : (60 + 8 + 2 : Int) ≤ max (60 + 8 + 2) (maxLabelwidth fm s.m_tabs + 4) := le_max_left _ _
    omega

theorem tabRect_height_nonneg (fm : FontMetrics) (s : FancyTabBar) (v : Int) :
    0 ≤ (tabRect fm s v).height := by
  unfold tabRect
  simp only
  split
  · exact Int.tdiv_nonneg (Int.ofNat_nonneg _) (by unfold FancyTabBar.count; exact Int.ofNat_nonneg _)
  · exact tabSizeHint_height_nonneg fm s

theorem tabRect_height_eq (fm : FontMetrics) (s : FancyTabBar) (v w : Int) :
    (tabRect fm s v).height = (tabRect fm s w).height := rfl

theorem tabRect_y (fm : FontMetrics) (s : FancyTabBar) (v : Int) :
    (tabRect fm s v).y = v * (tabRect fm s v).height := rfl

theorem tabRect_x (fm : FontMetrics) (s : FancyTabBar) (v : Int) : (tabRect fm s v).x = 0 := rfl

theorem tabRect_width (fm : FontMetrics) (s : FancyTabBar) (v : Int) :
    (tabRect fm s v).width = (tabSizeHint fm s false).width := rfl

/-- Membership in a tab rectangle, spelled out. -/
theorem tabRect_contains_iff (fm : FontMetrics) (s : FancyTabBar) (v : Int) (p : QPoint) :
    (tabRect fm s v).contains p = true ↔
      (0 ≤ p.x ∧ p.x < (tabRect fm s v).width) ∧
      (v * (tabRect fm s v).height ≤ p.y ∧ p.y < v * (tabRect fm s v).height + (tabRect fm s v).height) := by
  have hh := tabRect_height_nonneg fm s v
  have hw : 0 < (tabRect fm s v).width := tabSizeHint_width_pos fm s false
  have hx := tabRect_x fm s v
  have hy := tabRect_y fm s v
  unfold QRect.contains QRect.right QRect.bottom
  rw [hx, hy]
  have h1 : ¬ (0 + (tabRect fm s v).width - 1 < 0 - 1) := by omega
  have h2 : ¬ (v * (tabRect fm s v).height + (tabRect fm s v).height - 1
      < v * (tabRect fm s v).height - 1) := by omega
  simp only [if_neg h1, if_neg h2]
  generalize v * (tabRect fm s v).height = y0
  generalize (tabRect fm s v).height = h
  generalize (tabRect fm s v).width = w
  by_cases a : p.x < 0 <;> by_cases b : p.x > 0 + w - 1 <;> by_cases c : p.y < y0 <;>
    by_cases d : p.y > y0 + h - 1 <;> simp [a, b, c, d] <;> omega

/-- Two tab rectangles that share a pixel are the same rectangle. -/
theorem tabRect_disjoint (fm : FontMetrics) (s : FancyTabBar) (v w : Int) (p : QPoint)
    (hv : (tabRect fm s v).contains p = true) (hw : (tabRect fm s w).contains p = true) :
    v = w := by
  rw [tabRect_contains_iff] at hv hw
  rw [tabRect_height_eq fm s w v] at hw
  have hh := tabRect_height_nonneg fm s v
  generalize (tabRect fm s v).height = h at *
  obtain ⟨_, hv1, hv2⟩ := hv
  obtain ⟨_, hw1, hw2⟩ := hw
  by_contra hne
  rcases lt_or_gt_of_ne hne with hlt | hgt
  · have : (v + 1) * h ≤ w * h := Int.mul_le_mul_of_nonneg_right (by omega) hh
    nlinarith
  · have : (w + 1) * h ≤ v * h := Int.mul_le_mul_of_nonneg_right (by omega) hh
    nlinarith

/-! ## Lemmas on the hit test -/

theorem tabAt_of_getElem (s : FancyTabBar) (k : Nat) (tab : FancyTab)
    (h : s.m_tabs[k]? = some tab) : s.tabAt k = some tab := by
  simp [FancyTabBar.tabAt, h]

/-- The walk stops at a visible tab whose rectangle contains the position. -/
theorem hitTest_of_contains (fm : FontMetrics) (s : FancyTabBar) (i : Int) (tab : FancyTab)
    (pos : QPoint) (hi : s.tabAt i = some tab) (hvis : tab.visible = true)
    (hin : (tabRect fm s (visibleIndex s i)).contains pos = true) :
    hitTest fm s pos = (some i, visibleIndex s i) := by
  obtain ⟨k, rfl, hk, hlen⟩ := tabAt_some s i tab hi
  have hvi := visibleIndex_eq s k (le_of_lt hlen)
  have := hitLoop_first (fun v => (tabRect fm s v).contains pos) s.m_tabs 0 0 k tab hk hvis
    (by simpa [hvi] using hin)
    (by
      intro j tj hj hjt hjv
      have hlt := visibleCount_take_lt s.m_tabs j k tj hj hjt hjv
      by_contra hc
      simp only [Bool.not_eq_false] at hc
      have := tabRect_disjoint fm s _ _ pos hc hin
      rw [hvi] at this
      omega)
  simpa [hitTest, hvi] using this

/-- The walk runs off the list when no visible tab's rectangle contains the position. -/
theorem hitTest_of_outside (fm : FontMetrics) (s : FancyTabBar) (pos : QPoint)
    (hout : ∀ (i : Int) (tab : FancyTab), s.tabAt i = some tab → tab.visible = true →
      (tabRect fm s (visibleIndex s i)).contains pos = false) :
    hitTest fm s pos = (none, visibleCount s.m_tabs) := by
  have := hitLoop_none (fun v => (tabRect fm s v).contains pos) s.m_tabs 0 0
    (by
      intro j tj hjt hjv
      have hlen : j < s.m_tabs.length := (List.getElem?_eq_some_iff.mp hjt).1
      have := hout j tj (tabAt_of_getElem s j tj hjt) hjv
      rw [visibleIndex_eq s j (le_of_lt hlen)] at this
      simpa using this)
  simpa [hitTest] using this

theorem isTabEnabled_of_tabAt (env : Env) (s : FancyTabBar) (i : Int) (tab : FancyTab)
    (hi : s.tabAt i = some tab) : isTabEnabled env s i = some tab.enabled := by
  obtain ⟨k, rfl, hk, hlen⟩ := tabAt_some s i tab hi
  have h1 : ((k : Int) < s.count) := by unfold FancyTabBar.count; exact_mod_cast hlen
  have h2 : ((k : Int) ≥ 0) := Int.ofNat_nonneg k
  simp [isTabEnabled, h1, h2, hi]

theorem tabAt_none_of_invalid (s : FancyTabBar) (i : Int) (h : s.validIndex i = false) :
    s.tabAt i = none := by
  unfold FancyTabBar.validIndex FancyTabBar.count at h
  unfold FancyTabBar.tabAt
  split
  · rename_i h0
    simp only [ge_iff_le, h0, decide_True, Bool.true_and, decide_eq_false_iff_not, not_lt] at h
    apply List.getElem?_eq_none
    omega
  · rfl

theorem validIndex_of_tabAt (s : FancyTabBar) (i : Int) (tab : FancyTab)
    (hi : s.tabAt i = some tab) : s.validIndex i = true := by
  by_contra h
  simp only [Bool.not_eq_true] at h
  rw [tabAt_none_of_invalid s i h] at hi
  simp at hi

/-! ## Lemmas on what the handlers leave in place -/

theorem getElem?_modifyTab (f : FancyTab → FancyTab) (tabs : List FancyTab) (index : Int)
    (h0 : 0 ≤ index) (c : Nat) :
    (modifyTab f tabs index)[c]? = if index.toNat = c then tabs[c]?.map f else tabs[c]? := by
  unfold modifyTab
  rw [if_pos h0]
  split
  · rename_i t ht
    have hlen : index.toNat < tabs.length := (List.getElem?_eq_some_iff.mp ht).1
    rw [List.getElem?_set]
    by_cases hn : index.toNat = c
    · subst hn; simp [hlen, ht]
    · simp [hn]
  · rename_i ht
    by_cases hn : index.toNat = c
    · subst hn; simp [ht]
    · simp [hn]

theorem map_modifyTab {α : Type} (g : FancyTab → α) (f : FancyTab → FancyTab)
    (hf : ∀ t, g (f t) = g t) (tabs : List FancyTab) (index : Int) :
    (modifyTab f tabs index).map g = tabs.map g := by
  by_cases h0 : 0 ≤ index
  · apply List.ext_getElem?
    intro n
    simp only [List.getElem?_map, getElem?_modifyTab f tabs index h0 n]
    split
    · cases tabs[n]? <;> simp [hf]
    · rfl
  · unfold modifyTab
    rw [if_neg h0]

theorem length_modifyTab (f : FancyTab → FancyTab) (tabs : List FancyTab) (index : Int) :
    (modifyTab f tabs index).length = tabs.length := by
  have := congrArg List.length (map_modifyTab (fun _ => ()) f (fun _ => rfl) tabs index)
  simpa using this

theorem maxLabelwidth_congr (fm : FontMetrics) (tabs tabs1 : List FancyTab)
    (h : tabs1.map (fun t => t.text) = tabs.map (fun t => t.text)) :
    maxLabelwidth fm tabs1 = maxLabelwidth fm tabs := by
  have key : ∀ l : List FancyTab, maxLabelwidth fm l
      = (l.map (fun t => t.text)).foldl
          (fun m str => if fm.horizontalAdvance str > m then fm.horizontalAdvance str else m) 0 := by
    intro l
    unfold maxLabelwidth
    rw [List.foldl_map]
  rw [key, key, h]

theorem tabRect_congr (fm : FontMetrics) (s s1 : FancyTabBar)
    (htext : s1.m_tabs.map (fun t => t.text) = s.m_tabs.map (fun t => t.text))
    (hmode : s1.m_iconsOnly = s.m_iconsOnly) (hheight : s1.height = s.height) (v : Int) :
    tabRect fm s1 v = tabRect fm s v := by
  have hlen : s1.m_tabs.length = s.m_tabs.length := by
    simpa using congrArg List.length htext
  unfold tabRect tabSizeHint FancyTabBar.count
  rw [hmode, hheight, hlen, maxLabelwidth_congr fm s.m_tabs s1.m_tabs htext]

theorem hitLoop_congr (hit : Int → Bool) (tabs : List FancyTab) :
    ∀ (tabs1 : List FancyTab) (i v : Int),
      tabs1.map (fun t => t.visible) = tabs.map (fun t => t.visible) →
      hitLoop hit tabs1 i v = hitLoop hit tabs i v := by
  induction tabs with
  | nil =>
    intro tabs1 i v h
    have : tabs1 = [] := by simpa using h
    subst this; rfl
  | cons t rest ih =>
    intro tabs1 i v h
    cases tabs1 with
    | nil => simp at h
    | cons t1 rest1 =>
      simp only [List.map_cons, List.cons.injEq] at h
      rw [hitLoop, hitLoop, h.1, ih rest1 _ _ h.2, ih rest1 _ _ h.2]

theorem hitTest_congr (fm : FontMetrics) (s s1 : FancyTabBar) (pos : QPoint)
    (htext : s1.m_tabs.map (fun t => t.text) = s.m_tabs.map (fun t => t.text))
    (hvis : s1.m_tabs.map (fun t => t.visible) = s.m_tabs.map (fun t => t.visible))
    (hmode : s1.m_iconsOnly = s.m_iconsOnly) (hheight : s1.height = s.height) :
    hitTest fm s1 pos = hitTest fm s pos := by
  unfold hitTest
  rw [hitLoop_congr _ s.m_tabs s1.m_tabs 0 0 hvis]
  congr 1
  funext v
  rw [tabRect_congr fm s s1 htext hmode hheight v]

/-- What a pointer move leaves in place, and the hover index it ends with. -/
theorem mouseMoveEvent_frame (env : Env) (pos : QPoint) (s : FancyTabBar) :
    (mouseMoveEvent env pos s).1.m_tabs.map (fun t => t.text) = s.m_tabs.map (fun t => t.text) ∧
    (mouseMoveEvent env pos s).1.m_tabs.map (fun t => t.visible)
      = s.m_tabs.map (fun t => t.visible) ∧
    (mouseMoveEvent env pos s).1.m_iconsOnly = s.m_iconsOnly ∧
    (mouseMoveEvent env pos s).1.height = s.height ∧
    (mouseMoveEvent env pos s).1.m_currentIndex = s.m_currentIndex ∧
    (mouseMoveEvent env pos s).1.m_hoverIndex = (hitTest env.fm s pos).1.getD (-1) := by
  have ht1 := map_modifyTab (fun t => t.text) FancyTab.fadeOut (fun _ => rfl)
  have ht2 := map_modifyTab (fun t => t.text) FancyTab.fadeIn (fun _ => rfl)
  have hv1 := map_modifyTab (fun t => t.visible) FancyTab.fadeOut (fun _ => rfl)
  have hv2 := map_modifyTab (fun t => t.visible) FancyTab.fadeIn (fun _ => rfl)
  unfold mouseMoveEvent
  simp only
  split
  · rename_i h; simp [h]
  · split <;> split <;> simp [ht1, ht2, hv1, hv2]

theorem visibleCount_of_all_visible (tabs : List FancyTab)
    (h : ∀ tab ∈ tabs, tab.visible = true) : visibleCount tabs = tabs.length := by
  unfold visibleCount
  rw [List.filter_eq_self.mpr h]

/-! ## Lemmas on the selection -/

theorem currentIsNoneOrEnabled_iff (s : FancyTabBar) :
    currentIsNoneOrEnabled s = true ↔
      s.m_currentIndex = -1 ∨ ∃ tab, s.tabAt s.m_currentIndex = some tab ∧ tab.enabled = true := by
  unfold currentIsNoneOrEnabled
  cases h : s.tabAt s.m_currentIndex <;> simp

theorem tabAt_map_enabled (s : FancyTabBar) (i : Int) :
    (s.tabAt i).map (fun t => t.enabled)
      = if 0 ≤ i then (s.m_tabs.map (fun t => t.enabled))[i.toNat]? else none := by
  unfold FancyTabBar.tabAt
  split <;> simp

theorem currentIsNoneOrEnabled_congr (s s1 : FancyTabBar)
    (hcur : s1.m_currentIndex = s.m_currentIndex)
    (hen : s1.m_tabs.map (fun t => t.enabled) = s.m_tabs.map (fun t => t.enabled)) :
    currentIsNoneOrEnabled s1 = currentIsNoneOrEnabled s := by
  have h1 := tabAt_map_enabled s1 s.m_currentIndex
  have h2 := tabAt_map_enabled s s.m_currentIndex
  rw [hen, ← h2] at h1
  unfold currentIsNoneOrEnabled
  rw [hcur]
  cases ha : s1.tabAt s.m_currentIndex <;> cases hb : s.tabAt s.m_currentIndex <;>
    simp [ha, hb] at h1 ⊢
  rw [h1]

theorem isTabEnabled_true (env : Env) (s : FancyTabBar) (i : Int)
    (h : isTabEnabled env s i = some true) :
    ∃ tab, s.tabAt i = some tab ∧ tab.enabled = true := by
  unfold isTabEnabled at h
  split at h
  · simp at h
  · split at h
    · cases ht : s.tabAt i with
      | none => simp [ht] at h
      | some tab => exact ⟨tab, rfl, by simpa [ht] using h⟩
    · simp at h

theorem setCurrentIndex_keeps (env : Env) (i : Int) (s s1 : FancyTabBar) (trace : List Call)
    (hinv : currentIsNoneOrEnabled s = true)
    (h : setCurrentIndex env i s = some (s1, trace)) : currentIsNoneOrEnabled s1 = true := by
  unfold setCurrentIndex at h
  simp only at h
  by_cases hm1 : i = -1
  · simp only [hm1, if_true, Bool.true_and] at h
    split at h
    · simp only [Option.some.injEq, Prod.mk.injEq] at h
      rw [← h.1]; rfl
    · simp only [Option.some.injEq, Prod.mk.injEq] at h
      rw [← h.1]; exact hinv
  · simp only [hm1, if_false] at h
    cases hen : isTabEnabled env s i with
    | none => simp [hen] at h
    | some b =>
      simp only [hen] at h
      split at h
      · rename_i hc
        simp only [Bool.and_eq_true] at hc
        simp only [Option.some.injEq, Prod.mk.injEq] at h
        rw [← h.1]
        have hb : b = true := hc.1
        subst hb
        obtain ⟨tab, ht, hte⟩ := isTabEnabled_true env s i hen
        rw [currentIsNoneOrEnabled_iff]
        exact Or.inr ⟨tab, ht, hte⟩
      · simp only [Option.some.injEq, Prod.mk.injEq] at h
        rw [← h.1]; exact hinv

theorem mousePressEvent_keeps (env : Env) (event : QMouseEvent) (s s1 : FancyTabBar)
    (trace : List Call) (hinv : currentIsNoneOrEnabled s = true)
    (h : mousePressEvent env event s = some (s1, trace)) : currentIsNoneOrEnabled s1 = true := by
  unfold mousePressEvent at h
  split at h
  · rename_i index visibleIndex _
    simp only at h
    split at h
    · rename_i enabled tab hen htab
      split at h
      · rename_i hc
        split at h
        · simp only [Option.some.injEq, Prod.mk.injEq] at h
          rw [← h.1]; exact hinv
        · split at h
          · simp only [Option.some.injEq, Prod.mk.injEq] at h
            rw [← h.1, currentIsNoneOrEnabled_iff]
            simp only [Bool.and_eq_true] at hc
            have hb : enabled = true := hc.1
            subst hb
            exact Or.inr (isTabEnabled_true env s index hen)
          · simp only [Option.some.injEq, Prod.mk.injEq] at h
            rw [← h.1]; exact hinv
      · split at h <;>
        · simp only [Option.some.injEq, Prod.mk.injEq] at h
          rw [← h.1]; exact hinv
    · simp at h
  · split at h <;>
    · simp only [Option.some.injEq, Prod.mk.injEq] at h
      rw [← h.1]; exact hinv

theorem insertTab_tabAt (index : Int) (icon : Nat) (label : String) (hasMenu : Bool)
    (s s1 : FancyTabBar) (trace : List Call)
    (h : insertTab index icon label hasMenu s = some (s1, trace))
    (c : Int) (tab : FancyTab) (hc : s.tabAt c = some tab) :
    s1.tabAt (if c ≥ index then c + 1 else c) = some tab := by
  unfold insertTab at h
  split at h
  · rename_i hr
    simp only [Option.some.injEq, Prod.mk.injEq] at h
    obtain ⟨k, rfl, hk, hlen⟩ := tabAt_some s c tab hc
    have hi : index = (index.toNat : Int) := (Int.toNat_of_nonneg hr.1).symm
    have hil : index.toNat ≤ s.m_tabs.length := by
      have := hr.2; unfold FancyTabBar.count at this; omega
    rw [← h.1]
    unfold FancyTabBar.tabAt
    simp only
    by_cases hge : (k : Int) ≥ index
    · have hkn : index.toNat ≤ k := by omega
      rw [if_pos hge, if_pos (by omega)]
      have e1 : ((k : Int) + 1).toNat = k + 1 := by omega
      rw [e1, List.getElem?_append_right (by simp; omega)]
      have e2 : k + 1 - (List.take index.toNat s.m_tabs).length = (k - index.toNat) + 1 := by
        simp; omega
      rw [e2, List.getElem?_cons_succ, List.getElem?_drop]
      have e3 : index.toNat + (k - index.toNat) = k := by omega
      rw [e3, hk]
    · have hkn : k < index.toNat := by omega
      rw [if_neg hge, if_pos (Int.ofNat_nonneg k)]
      rw [Int.toNat_ofNat, List.getElem?_append_left (by simp; omega), List.getElem?_take_of_lt hkn, hk]
  · simp at h

theorem insertTab_keeps (index : Int) (icon : Nat) (label : String) (hasMenu : Bool)
    (s s1 : FancyTabBar) (trace : List Call) (hinv : currentIsNoneOrEnabled s = true)
    (h : insertTab index icon label hasMenu s = some (s1, trace)) :
    currentIsNoneOrEnabled s1 = true := by
  have hcur : s1.m_currentIndex
      = if s.m_currentIndex ≥ index then s.m_currentIndex + 1 else s.m_currentIndex := by
    unfold insertTab at h
    split at h
    · simp only [Option.some.injEq, Prod.mk.injEq] at h
      rw [← h.1]
    · simp at h
  have hidx : 0 ≤ index := by
    unfold insertTab at h
    split at h
    · rename_i hr; exact hr.1
    · simp at h
  rw [currentIsNoneOrEnabled_iff] at hinv ⊢
  rcases hinv with hm1 | ⟨tab, ht, hte⟩
  · left
    rw [hcur, hm1, if_neg (by omega)]
  · right
    refine ⟨tab, ?_, hte⟩
    rw [hcur]
    exact insertTab_tabAt index icon label hasMenu s s1 trace h _ tab ht

theorem setTabEnabled_keeps (env : Env) (index : Int) (enable : Bool) (s s1 : FancyTabBar)
    (trace : List Call) (hinv : currentIsNoneOrEnabled s = true)
    (hguard : enable = true ∨ index ≠ s.m_currentIndex)
    (h : setTabEnabled env index enable s = some (s1, trace)) :
    currentIsNoneOrEnabled s1 = true := by
  have hs1 : s1 = s ∨ (0 ≤ index ∧ s1 = { s with
      m_tabs := modifyTab (fun tab => { tab with enabled := enable }) s.m_tabs index }) := by
    unfold setTabEnabled at h
    split at h
    · simp at h
    · split at h
      · rename_i hr
        simp only at h
        split at h
        · split at h <;>
          · simp only [Option.some.injEq, Prod.mk.injEq] at h
            exact Or.inr ⟨hr.2, h.1.symm⟩
        · simp at h
      · simp only [Option.some.injEq, Prod.mk.injEq] at h
        exact Or.inl h.1.symm
  rcases hs1 with rfl | ⟨h0, rfl⟩
  · exact hinv
  · rw [currentIsNoneOrEnabled_iff] at hinv ⊢
    rcases hinv with hm1 | ⟨tab, ht, hte⟩
    · exact Or.inl hm1
    · right
      obtain ⟨c, hc, hk, _⟩ := tabAt_some s _ tab ht
      simp only [hc]
      unfold FancyTabBar.tabAt
      simp only [Int.ofNat_nonneg, if_true, Int.toNat_ofNat]
      rw [getElem?_modifyTab _ _ _ h0 c, hk]
      by_cases hic : index.toNat = c
      · have : index = s.m_currentIndex := by omega
        rcases hguard with he | hne
        · subst he
          simp [hic]
        · exact absurd this hne
      · exact ⟨tab, by simp [hic], hte⟩

theorem mouseMoveEvent_enabled (env : Env) (pos : QPoint) (s : FancyTabBar) :
    (mouseMoveEvent env pos s).1.m_tabs.map (fun t => t.enabled)
      = s.m_tabs.map (fun t => t.enabled) ∧
    (mouseMoveEvent env pos s).1.m_currentIndex = s.m_currentIndex := by
  have h1 := map_modifyTab (fun t => t.enabled) FancyTab.fadeOut (fun _ => rfl)
  have h2 := map_modifyTab (fun t => t.enabled) FancyTab.fadeIn (fun _ => rfl)
  unfold mouseMoveEvent
  simp only
  split
  · simp
  · split <;> split <;> simp [h1, h2]

theorem removeTab_keeps (index : Int) (s s1 : FancyTabBar) (trace : List Call)
    (hinv : currentIsNoneOrEnabled s = true)
    (hguard : s.m_currentIndex = -1 ∨ s.m_currentIndex < index)
    (h : removeTab index s = some (s1, trace)) : currentIsNoneOrEnabled s1 = true := by
  unfold removeTab at h
  split at h
  · simp only [Option.some.injEq, Prod.mk.injEq] at h
    rw [← h.1]
    rw [currentIsNoneOrEnabled_iff] at hinv ⊢
    rcases hinv with hm1 | ⟨tab, ht, hte⟩
    · exact Or.inl hm1
    · right
      obtain ⟨c, hc, hk, _⟩ := tabAt_some s _ tab ht
      have hlt : (c : Int) < index := by
        rcases hguard with hg | hg <;> omega
      refine ⟨tab, ?_, hte⟩
      simp only [hc]
      unfold FancyTabBar.tabAt
      simp only [Int.ofNat_nonneg, if_true, Int.toNat_ofNat]
      rw [List.getElem?_eraseIdx_of_lt _ _ _ (by omega), hk]
  · simp at h

/-- Disabling the current tab: `setTabEnabled(currentIndex, false)` has a defined
result, keeps `currentIndex`, and the tab there is the old one with `enabled`
false. -/
theorem setTabEnabled_false_on_current (env : Env) (s : FancyTabBar) (tab : FancyTab)
    (hcur : s.tabAt s.m_currentIndex = some tab) :
    ∃ (s1 : FancyTabBar) (trace : List Call),
      setTabEnabled env s.m_currentIndex false s = some (s1, trace) ∧
      s1.m_currentIndex = s.m_currentIndex ∧
      s1.tabAt s1.m_currentIndex = some { tab with enabled := false } ∧
      currentIsNoneOrEnabled s1 = false := by
  obtain ⟨c, hc, hk, hlen⟩ := tabAt_some s _ tab hcur
  have h1 : s.m_currentIndex < s.count := by
    unfold FancyTabBar.count; omega
  have h0 : s.m_currentIndex ≥ 0 := by omega
  have hm1 : s.m_currentIndex ≠ -1 := by omega
  obtain ⟨s1, hs1⟩ : ∃ s1 : FancyTabBar, s1 = { s with
      m_tabs := (modifyTab (fun tab => { tab with enabled := false }) s.m_tabs s.m_currentIndex) } :=
    ⟨_, rfl⟩
  have hcur1 : s1.m_currentIndex = s.m_currentIndex := by rw [hs1]
  have hnew : s1.tabAt s.m_currentIndex = some { tab with enabled := false } := by
    rw [hs1]
    unfold FancyTabBar.tabAt
    simp only [if_pos h0]
    rw [getElem?_modifyTab _ _ _ h0]
    have : s.m_tabs[s.m_currentIndex.toNat]? = some tab := by
      unfold FancyTabBar.tabAt at hcur
      rwa [if_pos h0] at hcur
    simp [this]
  have hbad : currentIsNoneOrEnabled s1 = false := by
    unfold currentIsNoneOrEnabled
    rw [hcur1, hnew]
    simp [hm1]
  have hrun : setTabEnabled env s.m_currentIndex false s
      = if tab.visible = true then
          some (s1, [.updateRect (tabRect env.fm s1 (visibleIndex s1 s.m_currentIndex))])
        else some (s1, []) := by
    unfold setTabEnabled
    simp only [h1, h0, decide_True, Bool.and_self, Bool.not_true, Bool.and_false,
      Bool.false_eq_true, if_false, and_self, if_true]
    rw [← hs1, hnew]
  by_cases hv : tab.visible = true
  · rw [if_pos hv] at hrun
    exact ⟨s1, _, hrun, hcur1, by rw [hcur1]; exact hnew, hbad⟩
  · rw [if_neg hv] at hrun
    exact ⟨s1, _, hrun, hcur1, by rw [hcur1]; exact hnew, hbad⟩

theorem applyOp_keeps (env : Env) (op : Op) (s s1 : FancyTabBar) (trace : List Call)
    (hinv : currentIsNoneOrEnabled s = true) (hallowed : keepsSelectionEnabled s op = true)
    (h : applyOp env op s = some (s1, trace)) : currentIsNoneOrEnabled s1 = true := by
  cases op with
  | insertTab index icon label hasMenu => exact insertTab_keeps index icon label hasMenu s s1 trace hinv h
  | removeTab index =>
    simp [keepsSelectionEnabled] at hallowed
    exact removeTab_keeps index s s1 trace hinv hallowed h
  | setTabEnabled index enable =>
    refine setTabEnabled_keeps env index enable s s1 trace hinv ?_ h
    simp only [keepsSelectionEnabled, Bool.or_eq_true, bne_iff_ne, ne_eq] at hallowed
    exact hallowed
  | setTabVisible index visible =>
    simp only [applyOp, setTabVisible] at h
    split at h
    · simp only [Option.some.injEq, Prod.mk.injEq] at h
      rw [← h.1, ← hinv]
      exact currentIsNoneOrEnabled_congr s _ rfl
        (map_modifyTab (fun t => t.enabled) (fun tab => { tab with visible := visible })
          (fun _ => rfl) s.m_tabs index)
    · simp at h
  | setCurrentIndex index => exact setCurrentIndex_keeps env index s s1 trace hinv h
  | setIconsOnly iconsOnly =>
    simp only [applyOp, setIconsOnly, Option.some.injEq, Prod.mk.injEq] at h
    rw [← h.1, ← hinv]
    exact currentIsNoneOrEnabled_congr s _ rfl rfl
  | mousePress event => exact mousePressEvent_keeps env event s s1 trace hinv h
  | mouseMove pos =>
    simp only [applyOp, Option.some.injEq] at h
    have hf := mouseMoveEvent_enabled env pos s
    rw [h] at hf
    rw [← hinv]
    exact currentIsNoneOrEnabled_congr s s1 hf.2 hf.1
  | enter =>
    simp only [applyOp, enterEvent, Option.some.injEq, Prod.mk.injEq] at h
    rw [← h.1, ← hinv]
    exact currentIsNoneOrEnabled_congr s _ rfl rfl
  | leave =>
    simp only [applyOp, leaveEvent, Option.some.injEq, Prod.mk.injEq] at h
    rw [← h.1, ← hinv]
    refine currentIsNoneOrEnabled_congr s _ rfl ?_
    simp only [List.map_map]
    rfl
  | resize height =>
    simp only [applyOp, Option.some.injEq, Prod.mk.injEq] at h
    rw [← h.1, ← hinv]
    exact currentIsNoneOrEnabled_congr s _ rfl rfl

theorem runOpsWhere_keeps (env : Env) (ops : List Op) :
    ∀ (s s1 : FancyTabBar), currentIsNoneOrEnabled s = true →
      runOpsWhere env keepsSelectionEnabled ops s = some s1 → currentIsNoneOrEnabled s1 = true := by
  induction ops with
  | nil =>
    intro s s1 hinv h
    simp only [runOpsWhere, Option.some.injEq] at h
    rw [← h]; exact hinv
  | cons op ops ih =>
    intro s s1 hinv h
    rw [runOpsWhere] at h
    split at h
    · rename_i hallowed
      split at h
      · rename_i s2 trace hstep
        exact ih s2 s1 (applyOp_keeps env op s s2 trace hinv hallowed hstep) h
      · simp at h
    · simp at h

theorem tabRect_height_of_compressed (fm : FontMetrics) (s : FancyTabBar) (v : Int)
    (h : (tabSizeHint fm s false).height * s.count > s.height) :
    (tabRect fm s v).height = (s.height : Int) / s.count := by
  unfold tabRect
  simp only [if_pos h]
  exact Int.tdiv_eq_ediv (Int.ofNat_nonneg _)
    (by unfold FancyTabBar.count; exact Int.ofNat_nonneg _)

theorem tabRect_height_of_fitting (fm : FontMetrics) (s : FancyTabBar) (v : Int)
    (h : ¬ ((tabSizeHint fm s false).height * s.count > s.height)) :
    (tabRect fm s v).height = (tabSizeHint fm s false).height := by
  unfold tabRect
  simp only [if_neg h]

/-! ## Lemmas on the paint loop -/

/-- Every call of the paint loop is for a visible, non-current tab, at the slot
counted before it. -/
theorem paintLoop_sound (cur : Int) (tabs : List FancyTab) :
    ∀ (i0 v0 vc : Int) (call : PaintCall), call ∈ (paintLoop cur tabs i0 v0 vc).1 →
      ∃ (k : Nat) (tab : FancyTab), tabs[k]? = some tab ∧ tab.visible = true ∧
        i0 + k ≠ cur ∧
        call = { tabIndex := i0 + k, visibleIndex := v0 + visibleCount (tabs.take k),
                 iconOn := false } := by
  induction tabs with
  | nil => intro i0 v0 vc call h; simp [paintLoop] at h
  | cons t rest ih =>
    intro i0 v0 vc call h
    rw [paintLoop] at h
    by_cases htv : t.visible = true
    · simp only [htv, Bool.not_true, Bool.false_eq_true, if_false] at h
      by_cases hcur : i0 = cur
      · have hb : (i0 != cur) = false := by simp [hcur]
        simp only [hb, Bool.false_eq_true, if_false] at h
        obtain ⟨k, tab, hk, hvis, hne, hcall⟩ := ih (i0 + 1) (v0 + 1) v0 call h
        refine ⟨k + 1, tab, by simpa using hk, hvis, ?_, ?_⟩
        · push_cast; intro hc; apply hne; rw [← hc]; ring
        · rw [hcall, List.take_succ_cons, visibleCount_cons, if_pos htv]
          congr 1 <;> push_cast <;> ring
      · have hb : (i0 != cur) = true := by simpa using hcur
        simp only [hb, if_true, List.mem_cons] at h
        rcases h with h | h
        · refine ⟨0, t, by simp, htv, by simpa using hcur, ?_⟩
          rw [h]; simp [visibleCount_nil]
        · obtain ⟨k, tab, hk, hvis, hne, hcall⟩ := ih (i0 + 1) (v0 + 1) vc call h
          refine ⟨k + 1, tab, by simpa using hk, hvis, ?_, ?_⟩
          · push_cast; intro hc; apply hne; rw [← hc]; ring
          · rw [hcall, List.take_succ_cons, visibleCount_cons, if_pos htv]
            congr 1 <;> push_cast <;> ring
    · simp only [htv, Bool.not_false, if_true] at h
      obtain ⟨k, tab, hk, hvis, hne, hcall⟩ := ih (i0 + 1) v0 vc call h
      refine ⟨k + 1, tab, by simpa using hk, hvis, ?_, ?_⟩
      · push_cast; intro hc; apply hne; rw [← hc]; ring
      · rw [hcall, List.take_succ_cons, visibleCount_cons, if_neg htv]
        congr 1 <;> push_cast <;> ring

/-- Every visible, non-current tab gets its call in the paint loop. -/
theorem paintLoop_complete (cur : Int) (tabs : List FancyTab) :
    ∀ (i0 v0 vc : Int) (k : Nat) (tab : FancyTab), tabs[k]? = some tab → tab.visible = true →
      i0 + k ≠ cur →
      ({ tabIndex := i0 + k, visibleIndex := v0 + visibleCount (tabs.take k),
         iconOn := false } : PaintCall) ∈ (paintLoop cur tabs i0 v0 vc).1 := by
  induction tabs with
  | nil => intro i0 v0 vc k tab h; simp at h
  | cons t rest ih =>
    intro i0 v0 vc k tab hk hvis hne
    rw [paintLoop]
    cases k with
    | zero =>
      simp only [List.getElem?_cons_zero, Option.some.injEq] at hk
      subst hk
      have hb : (i0 != cur) = true := by simpa using hne
      simp [hvis, hb, visibleCount_nil]
    | succ k =>
      simp only [List.getElem?_cons_succ] at hk
      have hne1 : (i0 + 1) + (k : Int) ≠ cur := by
        intro hc; apply hne; rw [← hc]; push_cast; ring
      have hidx : i0 + ((k + 1 : Nat) : Int) = (i0 + 1) + (k : Int) := by push_cast; ring
      by_cases htv : t.visible = true
      · have hv : v0 + visibleCount (List.take (k + 1) (t :: rest))
            = (v0 + 1) + visibleCount (rest.take k) := by
          rw [List.take_succ_cons, visibleCount_cons, if_pos htv]; ring
        rw [hv, hidx]
        simp only [htv, Bool.not_true, Bool.false_eq_true, if_false]
        by_cases hcur : i0 = cur
        · have hb : (i0 != cur) = false := by simp [hcur]
          simp only [hb, Bool.false_eq_true, if_false]
          exact ih (i0 + 1) (v0 + 1) v0 k tab hk hvis hne1
        · have hb : (i0 != cur) = true := by simpa using hcur
          simp only [hb, if_true, List.mem_cons]
          exact Or.inr (ih (i0 + 1) (v0 + 1) vc k tab hk hvis hne1)
      · have hv : v0 + visibleCount (List.take (k + 1) (t :: rest))
            = v0 + visibleCount (rest.take k) := by
          rw [List.take_succ_cons, visibleCount_cons, if_neg htv]; ring
        rw [hv, hidx]
        simp only [htv, Bool.not_false, if_true]
        exact ih (i0 + 1) v0 vc k tab hk hvis hne1

/-- The calls of the paint loop come in strictly increasing logical order. -/
theorem paintLoop_increasing (cur : Int) (tabs : List FancyTab) :
    ∀ (i0 v0 vc : Int),
      List.Pairwise (fun a b : PaintCall => a.tabIndex < b.tabIndex)
        (paintLoop cur tabs i0 v0 vc).1 := by
  induction tabs with
  | nil => intro i0 v0 vc; simp [paintLoop]
  | cons t rest ih =>
    intro i0 v0 vc
    rw [paintLoop]
    by_cases htv : t.visible = true
    · simp only [htv, Bool.not_true, Bool.false_eq_true, if_false]
      by_cases hcur : i0 = cur
      · have hb : (i0 != cur) = false := by simp [hcur]
        simp only [hb, Bool.false_eq_true, if_false]
        exact ih _ _ _
      · have hb : (i0 != cur) = true := by simpa using hcur
        simp only [hb, if_true, List.pairwise_cons]
        refine ⟨?_, ih _ _ _⟩
        intro call hcall
        obtain ⟨k, _, _, _, _, hc⟩ := paintLoop_sound cur rest (i0 + 1) (v0 + 1) vc call hcall
        rw [hc]
        show i0 < i0 + 1 + (k : Int)
        omega
    · simp only [htv, Bool.not_false, if_true]
      exact ih _ _ _

/-- The paint loop keeps its initial slot when no visible tab is current. -/
theorem paintLoop_current_absent (cur : Int) (tabs : List FancyTab) :
    ∀ (i0 v0 vc : Int),
      (∀ (k : Nat) (tab : FancyTab), tabs[k]? = some tab → tab.visible = true → i0 + k ≠ cur) →
      (paintLoop cur tabs i0 v0 vc).2 = vc := by
  induction tabs with
  | nil => intro i0 v0 vc _; simp [paintLoop]
  | cons t rest ih =>
    intro i0 v0 vc hall
    have hrest : ∀ (j0 : Int), j0 = i0 + 1 → ∀ (k : Nat) (tab : FancyTab),
        rest[k]? = some tab → tab.visible = true → j0 + k ≠ cur := by
      intro j0 hj k tab hk hvis hc
      apply hall (k + 1) tab (by simpa using hk) hvis
      rw [← hc, hj]; push_cast; ring
    rw [paintLoop]
    by_cases htv : t.visible = true
    · have hne : i0 ≠ cur := by simpa using hall 0 t (by simp) htv
      have hb : (i0 != cur) = true := by simpa using hne
      simp only [htv, Bool.not_true, Bool.false_eq_true, if_false, hb, if_true]
      exact ih (i0 + 1) (v0 + 1) vc (hrest _ rfl)
    · simp only [htv, Bool.not_false, if_true]
      exact ih (i0 + 1) v0 vc (hrest _ rfl)

/-- The slot the paint loop remembers for a visible current tab. -/
theorem paintLoop_current_visible (cur : Int) (tabs : List FancyTab) :
    ∀ (i0 v0 vc : Int) (k : Nat) (tab : FancyTab), tabs[k]? = some tab → tab.visible = true →
      i0 + k = cur →
      (paintLoop cur tabs i0 v0 vc).2 = v0 + visibleCount (tabs.take k) := by
  induction tabs with
  | nil => intro i0 v0 vc k tab h; simp at h
  | cons t rest ih =>
    intro i0 v0 vc k tab hk hvis hcur
    rw [paintLoop]
    cases k with
    | zero =>
      simp only [List.getElem?_cons_zero, Option.some.injEq] at hk
      subst hk
      have hi : i0 = cur := by simpa using hcur
      simp only [hvis, Bool.not_true, Bool.false_eq_true, if_false, hi, bne_self_eq_false]
      rw [paintLoop_current_absent cur rest (cur + 1) (v0 + 1) v0]
      · simp [visibleCount_nil]
      · intro j tj _ _ hc
        omega
    | succ k =>
      simp only [List.getElem?_cons_succ] at hk
      have hne : i0 ≠ cur := by
        intro hc; rw [hc] at hcur; push_cast at hcur; omega
      have hb : (i0 != cur) = true := by simpa using hne
      have hcur1 : (i0 + 1) + (k : Int) = cur := by rw [← hcur]; push_cast; ring
      by_cases htv : t.visible = true
      · simp only [htv, Bool.not_true, Bool.false_eq_true, if_false, hb, if_true]
        rw [ih (i0 + 1) (v0 + 1) vc k tab hk hvis hcur1, List.take_succ_cons, visibleCount_cons,
          if_pos htv]
        ring
      · simp only [htv, Bool.not_false, if_true]
        rw [ih (i0 + 1) v0 vc k tab hk hvis hcur1, List.take_succ_cons, visibleCount_cons,
          if_neg htv]
        ring

/-- The order of the `paintTab` calls of one repaint.  The loop paints every
visible non-current tab exactly once, in increasing logical order, each at the
slot `visibleIndex` of its logical index; a current tab comes last, at its own
slot when it is visible and at slot -1 when it is hidden. -/
theorem paintEvent_order (s : FancyTabBar) :
    (∀ call ∈ (paintLoop s.m_currentIndex s.m_tabs 0 0 (-1)).1,
      ∃ tab, s.tabAt call.tabIndex = some tab ∧ tab.visible = true ∧
        call.tabIndex ≠ s.m_currentIndex ∧
        call.visibleIndex = visibleIndex s call.tabIndex ∧ 0 ≤ call.visibleIndex ∧
        call.iconOn = false) ∧
    (∀ (i : Int) (tab : FancyTab), s.tabAt i = some tab → tab.visible = true →
      i ≠ s.m_currentIndex →
      ({ tabIndex := i, visibleIndex := visibleIndex s i, iconOn := false } : PaintCall)
        ∈ (paintLoop s.m_currentIndex s.m_tabs 0 0 (-1)).1) ∧
    List.Pairwise (fun a b : PaintCall => a.tabIndex < b.tabIndex)
      (paintLoop s.m_currentIndex s.m_tabs 0 0 (-1)).1 ∧
    (paintLoop s.m_currentIndex s.m_tabs 0 0 (-1)).1.Nodup ∧
    (s.m_currentIndex = -1 → paintEvent s = (paintLoop s.m_currentIndex s.m_tabs 0 0 (-1)).1) ∧
    (∀ tab, s.tabAt s.m_currentIndex = some tab → tab.visible = true →
      paintEvent s = (paintLoop s.m_currentIndex s.m_tabs 0 0 (-1)).1 ++
        [{ tabIndex := s.m_currentIndex, visibleIndex := visibleIndex s s.m_currentIndex,
           iconOn := true }]) ∧
    (∀ tab, s.tabAt s.m_currentIndex = some tab → tab.visible = false →
      paintEvent s = (paintLoop s.m_currentIndex s.m_tabs 0 0 (-1)).1 ++
        [{ tabIndex := s.m_currentIndex, visibleIndex := -1, iconOn := true }]) := by
  have hsorted := paintLoop_increasing s.m_currentIndex s.m_tabs 0 0 (-1)
  have hm1 : ∀ tab, s.tabAt s.m_currentIndex = some tab → (s.m_currentIndex != -1) = true := by
    intro tab ht
    simp only [bne_iff_ne, ne_eq]
    intro hc
    rw [hc] at ht
    simp [FancyTabBar.tabAt] at ht
  refine ⟨?_, ?_, hsorted, ?_, ?_, ?_, ?_⟩
  · intro call hcall
    obtain ⟨k, tab, hk, hvis, hne, hc⟩ :=
      paintLoop_sound s.m_currentIndex s.m_tabs 0 0 (-1) call hcall
    have hlen : k < s.m_tabs.length := (List.getElem?_eq_some_iff.mp hk).1
    have hvi := visibleIndex_eq s k (le_of_lt hlen)
    have hnn := visibleCount_nonneg (s.m_tabs.take k)
    simp only [zero_add] at hne hc
    subst hc
    exact ⟨tab, tabAt_of_getElem s k tab hk, hvis, hne, by simp [hvi], by simpa using hnn, rfl⟩
  · intro i tab hi hvis hne
    obtain ⟨k, rfl, hk, hlen⟩ := tabAt_some s i tab hi
    have := paintLoop_complete s.m_currentIndex s.m_tabs 0 0 (-1) k tab hk hvis (by simpa using hne)
    rw [visibleIndex_eq s k (le_of_lt hlen)]
    simpa using this
  · exact hsorted.imp (fun {a b} hab heq => by rw [heq] at hab; exact lt_irrefl _ hab)
  · intro hc
    simp [paintEvent, hc]
  · intro tab ht hvis
    obtain ⟨k, hk0, hk, hlen⟩ := tabAt_some s _ tab ht
    have hslot := paintLoop_current_visible s.m_currentIndex s.m_tabs 0 0 (-1) k tab hk hvis
      (by omega)
    rw [← visibleIndex_eq s k (le_of_lt hlen), zero_add, ← hk0] at hslot
    simp only [paintEvent, hm1 tab ht, if_true, hslot]
  · intro tab ht hvis
    obtain ⟨k, hk0, hk, hlen⟩ := tabAt_some s _ tab ht
    have hslot := paintLoop_current_absent s.m_currentIndex s.m_tabs 0 0 (-1)
      (by
        intro j tj hj hjv hc
        have : j = k := by omega
        subst this
        rw [hk] at hj
        simp only [Option.some.injEq] at hj
        subst hj
        rw [hvis] at hjv
        simp at hjv)
    simp only [paintEvent, hm1 tab ht, if_true, hslot]

/-! ## The division and the product of `tabRect` -/

theorem wrapInt32_of_in_range (x : Int) (h0 : -2147483648 ≤ x) (h1 : x < 2147483648) :
    wrapInt32 x = x := by
  unfold wrapInt32
  omega

theorem wrapInt32_in_range (x : Int) :
    -2147483648 ≤ wrapInt32 x ∧ wrapInt32 x < 2147483648 := by
  unfold wrapInt32
  omega

/-- For the slots the handlers pass, `0 <= visibleIndex <= count`, the top of the
tab rectangle lies within `[0, height()]`. -/
theorem tabRect_slot_within_height (fm : FontMetrics) (s : FancyTabBar) (v : Int)
    (h0 : 0 ≤ v) (h1 : v ≤ s.count) :
    0 ≤ (tabRect fm s v).y ∧ (tabRect fm s v).y ≤ s.height := by
  have hh := tabRect_height_nonneg fm s v
  have hsh := tabSizeHint_height_nonneg fm s
  have hc0 : 0 ≤ s.count := by unfold FancyTabBar.count; exact Int.ofNat_nonneg _
  rw [tabRect_y]
  refine ⟨Int.mul_nonneg h0 hh, ?_⟩
  by_cases hcomp : (tabSizeHint fm s false).height * s.count > s.height
  · rw [tabRect_height_of_compressed fm s v hcomp]
    have hpos : 0 < s.count := by
      rcases lt_or_eq_of_le hc0 with hlt | heq
      · exact hlt
      · rw [← heq] at hcomp; simp at hcomp; omega
    have hq : 0 ≤ (s.height : Int) / s.count := Int.ediv_nonneg (Int.ofNat_nonneg _) hc0
    have hm : (s.height : Int) / s.count * s.count ≤ s.height := Int.ediv_mul_le _ (ne_of_gt hpos)
    nlinarith
  · rw [tabRect_height_of_fitting fm s v hcomp]
    nlinarith

/-- The division the hypothesis `0 <= H` of C14 rules out: on the empty bar a
negative height enters the compression branch with `count == 0`. -/
theorem tabRectChecked_negative_height_empty_bar :
    tabRectChecked demoFm (emptyBar 0) (-1) 0 = none := by
  decide

/-! ## The menu-arrow zone -/

/-- The zone of the menu arrow as the press handler tests it: for an enabled,
visible tab with a menu in icon+text mode, a left click inside its rectangle is
a menu-arrow click when `width - 17 <= x`, and a selection click otherwise. -/
theorem left_click_on_menu_tab (env : Env) (s : FancyTabBar) (i : Int) (tab : FancyTab)
    (pos : QPoint) (hi : s.tabAt i = some tab) (hvis : tab.visible = true)
    (hen : tab.enabled = true) (hmenu : tab.hasMenu = true) (hmode : s.m_iconsOnly = false)
    (hin : (tabRect env.fm s (visibleIndex s i)).contains pos = true) :
    ((tabRect env.fm s (visibleIndex s i)).width - 17 ≤ pos.x →
      mousePressEvent env ⟨pos, .LeftButton⟩ s
        = some (s, [.menuTriggered i ⟨pos, .LeftButton⟩])) ∧
    (pos.x < (tabRect env.fm s (visibleIndex s i)).width - 17 →
      mousePressEvent env ⟨pos, .LeftButton⟩ s
        = if i != s.m_currentIndex then some ({ s with m_currentIndex := i }, commitTrace i)
          else some (s, [])) := by
  have hwalk := hitTest_of_contains env.fm s i tab pos hi hvis hin
  have hen1 := isTabEnabled_of_tabAt env s i tab hi
  have hright : (tabRect env.fm s (visibleIndex s i)).right
      = (tabRect env.fm s (visibleIndex s i)).width - 1 := by
    unfold QRect.right
    rw [tabRect_x]; ring
  constructor
  · intro hx
    have hzone : (tabRect env.fm s (visibleIndex s i)).right - pos.x ≤ kMenuButtonWidth := by
      rw [hright]; unfold kMenuButtonWidth; omega
    unfold mousePressEvent
    simp only [hwalk, hen1, hi, hen, hmenu, hmode, hzone]
    simp
  · intro hx
    have hzone : ¬ ((tabRect env.fm s (visibleIndex s i)).right - pos.x ≤ kMenuButtonWidth) := by
      rw [hright]; unfold kMenuButtonWidth; omega
    unfold mousePressEvent
    simp only [hwalk, hen1, hi, hen, hmenu, hmode, hzone]
    simp

/-! ## Clicks and `setCurrentIndex` -/

/-- Where a click and `setCurrentIndex` agree: a left click inside the rectangle
of a visible, enabled, non-current tab that fails the handler's menu-arrow test
(no menu, icons only, or not `right() - x <= kMenuButtonWidth`) has a defined
result, emits exactly `currentAboutToChange(i)` then `currentChanged(i)`, ends with
`currentIndex == i`, and bar and calls are those of `setCurrentIndex(i)`. -/
theorem left_click_outside_arrow_test_same_as_setCurrentIndex (env : Env) (s : FancyTabBar) (i : Int)
    (tab : FancyTab) (pos : QPoint)
    (hi : s.tabAt i = some tab) (hvis : tab.visible = true) (hen : tab.enabled = true)
    (hne : i ≠ s.m_currentIndex)
    (hin : (tabRect env.fm s (visibleIndex s i)).contains pos = true)
    (hnoarrow : tab.hasMenu = false ∨ s.m_iconsOnly = true ∨
      ¬ ((tabRect env.fm s (visibleIndex s i)).right - pos.x ≤ kMenuButtonWidth)) :
    ∃ (s1 : FancyTabBar) (trace : List Call),
      mousePressEvent env ⟨pos, .LeftButton⟩ s = some (s1, trace) ∧
      signalsOf trace = [.currentAboutToChange i, .currentChanged i] ∧
      s1.m_currentIndex = i ∧
      setCurrentIndex env i s = some (s1, trace) := by
  refine ⟨{ s with m_currentIndex := i }, commitTrace i, ?_, ?_, rfl, ?_⟩
  · have hmenu : (tab.hasMenu && (!s.m_iconsOnly &&
        decide ((tabRect env.fm s (visibleIndex s i)).right - pos.x ≤ kMenuButtonWidth))) = false := by
      rcases hnoarrow with h | h | h
      · simp [h]
      · simp [h]
      · simp [h]
    unfold mousePressEvent
    simp only [hitTest_of_contains env.fm s i tab pos hi hvis hin,
      isTabEnabled_of_tabAt env s i tab hi, hi, hen, hmenu]
    simp [hne]
  · simp [signalsOf, commitTrace, Call.isSignal]
  · have hm1 : i ≠ -1 := by
      intro h
      rw [h] at hi
      simp [FancyTabBar.tabAt] at hi
    unfold setCurrentIndex
    simp [hm1, isTabEnabled_of_tabAt env s i tab hi, hen, hne]

/-- At the scenario bar a left click at (5, 60), inside the rectangle of "Debug",
selects tab 1 exactly as `setCurrentIndex(1)` does. -/
theorem left_click_on_debug_selects_it :
    ∃ (s1 : FancyTabBar) (trace : List Call),
      mousePressEvent debugEnv ⟨⟨5, 60⟩, .LeftButton⟩ (demoBar 500) = some (s1, trace) ∧
      signalsOf trace = [.currentAboutToChange 1, .currentChanged 1] ∧
      s1.m_currentIndex = 1 ∧
      setCurrentIndex debugEnv 1 (demoBar 500) = some (s1, trace) :=
  left_click_outside_arrow_test_same_as_setCurrentIndex debugEnv (demoBar 500) 1 (newTab 1 "Debug" false) ⟨5, 60⟩
    (by decide) (by decide) (by decide) (by decide) (by decide) (Or.inl (by decide))

/-- The calls of `setCurrentIndex` that return: for an index that is -1 or an
existing one, and for every index when `Q_ASSERT` is compiled out, the call
commits when the index is -1 or an enabled tab and differs from `currentIndex`,
and leaves the bar alone otherwise. -/
theorem setCurrentIndex_of_defined_index (env : Env) (s : FancyTabBar) (i : Int)
    (hdefined : env.assertsKept = false ∨ i = -1 ∨ s.validIndex i = true) :
    (((i = -1 ∨ ∃ tab, s.tabAt i = some tab ∧ tab.enabled = true) ∧ i ≠ s.m_currentIndex) →
      setCurrentIndex env i s = some ({ s with m_currentIndex := i },
        [.currentAboutToChange i, .update, .currentChanged i])) ∧
    (¬ ((i = -1 ∨ ∃ tab, s.tabAt i = some tab ∧ tab.enabled = true) ∧ i ≠ s.m_currentIndex) →
      setCurrentIndex env i s = some (s, [])) ∧
    (∀ tab, s.tabAt i = some tab → tab.enabled = false → setCurrentIndex env i s = some (s, [])) := by
  by_cases hm1 : i = -1
  · subst hm1
    have hnone : s.tabAt (-1) = none := by simp [FancyTabBar.tabAt]
    refine ⟨?_, ?_, ?_⟩
    · rintro ⟨_, hne⟩
      simp [setCurrentIndex, commitTrace, hne]
    · intro hnot
      have : (-1 : Int) = s.m_currentIndex := by
        by_contra hc
        exact hnot ⟨Or.inl rfl, hc⟩
      simp [setCurrentIndex, ← this]
    · intro tab ht; rw [hnone] at ht; simp at ht
  · cases hta : s.tabAt i with
    | some tab =>
      have hen := isTabEnabled_of_tabAt env s i tab hta
      refine ⟨?_, ?_, ?_⟩
      · rintro ⟨hok, hne⟩
        rcases hok with h | ⟨tab1, h1, h2⟩
        · exact absurd h hm1
        · simp only [Option.some.injEq] at h1
          subst h1
          simp [setCurrentIndex, commitTrace, hm1, hen, h2, hne]
      · intro hnot
        by_cases hte : tab.enabled = true
        · have : i = s.m_currentIndex := by
            by_contra hc
            exact hnot ⟨Or.inr ⟨tab, rfl, hte⟩, hc⟩
          simp [setCurrentIndex, hm1, hen, hte, ← this]
        · simp [setCurrentIndex, hm1, hen, hte]
      · intro tab1 h1 h2
        simp only [Option.some.injEq] at h1
        subst h1
        simp [setCurrentIndex, hm1, hen, h2]
    | none =>
      have hinv : s.validIndex i = false := by
        by_contra hc
        simp only [Bool.not_eq_false] at hc
        unfold FancyTabBar.validIndex FancyTabBar.count at hc
        simp only [ge_iff_le, Bool.and_eq_true, decide_eq_true_eq] at hc
        unfold FancyTabBar.tabAt at hta
        rw [if_pos hc.1] at hta
        have := List.getElem?_eq_none_iff.mp hta
        omega
      have hrel : env.assertsKept = false := by
        rcases hdefined with h | h | h
        · exact h
        · exact absurd h hm1
        · rw [hinv] at h; simp at h
      have hrange : ¬ (i < s.count ∧ i ≥ 0) := by
        unfold FancyTabBar.validIndex at hinv
        simp only [ge_iff_le, Bool.and_eq_false_imp, decide_eq_true_eq, decide_eq_false_iff_not] at hinv
        intro h
        exact hinv h.2 h.1
      have hen : isTabEnabled env s i = some false := by
        simp [isTabEnabled, hrel]
        intro h1 h2
        exact absurd ⟨h1, h2⟩ hrange
      refine ⟨?_, ?_, ?_⟩
      · rintro ⟨hok, _⟩
        rcases hok with h | ⟨tab1, h1, _⟩
        · exact absurd h hm1
        · simp at h1
      · intro _
        simp [setCurrentIndex, hm1, hen]
      · intro tab1 h1; simp at h1

/-- The calls of `setCurrentIndex` that do not return: with `Q_ASSERT` kept, every
index outside `[0, count)` other than -1 fails an assertion of `isTabEnabled`. -/
theorem setCurrentIndex_of_asserted_index (env : Env) (s : FancyTabBar) (i : Int)
    (hkept : env.assertsKept = true) (hm1 : i ≠ -1) (hout : s.validIndex i = false) :
    setCurrentIndex env i s = none := by
  have hrange : (decide (i < s.count) && decide (i ≥ 0)) = false := by
    unfold FancyTabBar.validIndex at hout
    rw [Bool.and_comm]
    exact hout
  unfold setCurrentIndex isTabEnabled
  simp [hm1, hkept, hrange]

/-! ## The claims -/

/-- C1 at its failing input: on the scenario bar "Build" is visible, enabled and
not current, it has a menu and the mode is icon+text; the left click at (53, 10)
is inside its rectangle and left of its 16 rightmost columns (54 to 69), so it
is no menu-arrow hit; `setCurrentIndex(0)` commits with `currentAboutToChange(0)`
and `currentChanged(0)`, but the click emits `menuTriggered(0, event)` alone and
leaves `currentIndex` at -1. -/
theorem C1_click_at_17th_column_differs_from_setCurrentIndex :
    ((demoBar 500).tabAt 0 = some (newTab 0 "Build" true) ∧
      (newTab 0 "Build" true).visible = true ∧ (newTab 0 "Build" true).enabled = true ∧
      (0 : Int) ≠ (demoBar 500).m_currentIndex) ∧
    ((tabRect demoFm (demoBar 500) (visibleIndex (demoBar 500) 0)).contains ⟨53, 10⟩ = true ∧
      (53 : Int) < (tabRect demoFm (demoBar 500) (visibleIndex (demoBar 500) 0)).x
          + (tabRect demoFm (demoBar 500) (visibleIndex (demoBar 500) 0)).width
          - kMenuButtonWidth) ∧
    setCurrentIndex debugEnv 0 (demoBar 500)
      = some ({ demoBar 500 with m_currentIndex := 0 },
          [.currentAboutToChange 0, .update, .currentChanged 0]) ∧
    mousePressEvent debugEnv ⟨⟨53, 10⟩, .LeftButton⟩ (demoBar 500)
      = some (demoBar 500, [.menuTriggered 0 ⟨⟨53, 10⟩, .LeftButton⟩]) ∧
    mousePressEvent debugEnv ⟨⟨53, 10⟩, .LeftButton⟩ (demoBar 500)
      ≠ setCurrentIndex debugEnv 0 (demoBar 500) := by
  decide

/-- C2 as the claim states it fails in a build that keeps `Q_ASSERT`: on the
three-tab bar `setCurrentIndex(3)` does not return to its caller as a no-op, the
assertion `index < m_tabs.size()` of `isTabEnabled` fails. -/
theorem C2_out_of_range_index_trips_assertion :
    (demoBar 500).validIndex 3 = false ∧ (3 : Int) ≠ -1 ∧
    setCurrentIndex debugEnv 3 (demoBar 500) = none ∧
    setCurrentIndex debugEnv 3 (demoBar 500) ≠ some (demoBar 500, []) := by
  decide

/-- C2, amended: for every bar and every integer `i`: when `i` is -1 or an
existing index, and for every `i` when `Q_ASSERT` is compiled out,
`setCurrentIndex(i)` commits (sets `currentIndex` to `i`, emitting
`currentAboutToChange(i)`, a repaint request and `currentChanged(i)`) if `i` is -1
or an existing enabled tab and differs from `currentIndex`, and in every other
such case, in particular for a disabled tab, leaves the bar unchanged and issues
no call; when `Q_ASSERT` is kept, every `i` outside `[0, count)` other than -1
stops at an assertion of `isTabEnabled`. -/
theorem C2_setCurrentIndex_commits_iff_allowed (env : Env) (s : FancyTabBar) (i : Int) :
    ((env.assertsKept = false ∨ i = -1 ∨ s.validIndex i = true) →
      (((i = -1 ∨ ∃ tab, s.tabAt i = some tab ∧ tab.enabled = true) ∧ i ≠ s.m_currentIndex) →
        setCurrentIndex env i s = some ({ s with m_currentIndex := i },
          [.currentAboutToChange i, .update, .currentChanged i])) ∧
      (¬ ((i = -1 ∨ ∃ tab, s.tabAt i = some tab ∧ tab.enabled = true) ∧ i ≠ s.m_currentIndex) →
        setCurrentIndex env i s = some (s, [])) ∧
      (∀ tab, s.tabAt i = some tab → tab.enabled = false →
        setCurrentIndex env i s = some (s, []))) ∧
    ((env.assertsKept = true ∧ i ≠ -1 ∧ s.validIndex i = false) →
      setCurrentIndex env i s = none) :=
  ⟨setCurrentIndex_of_defined_index env s i,
   fun h => setCurrentIndex_of_asserted_index env s i h.1 h.2.1 h.2.2⟩

/-- C2 at concrete inputs: selecting "Debug" commits; index 3 of the three-tab
bar is left alone with assertions compiled out and stops at the assertion with
assertions kept. -/
theorem C2_commit_and_noop_examples :
    setCurrentIndex debugEnv 1 (demoBar 500)
      = some ({ demoBar 500 with m_currentIndex := 1 },
          [.currentAboutToChange 1, .update, .currentChanged 1]) ∧
    setCurrentIndex releaseEnv 3 (demoBar 500) = some (demoBar 500, []) ∧
    setCurrentIndex debugEnv 3 (demoBar 500) = none :=
  ⟨((C2_setCurrentIndex_commits_iff_allowed debugEnv (demoBar 500) 1).1
      (Or.inr (Or.inr (by decide)))).1
      ⟨Or.inr ⟨newTab 1 "Debug" false, by decide, by decide⟩, by decide⟩,
   ((C2_setCurrentIndex_commits_iff_allowed releaseEnv (demoBar 500) 3).1 (Or.inl rfl)).2.1
      (by decide),
   (C2_setCurrentIndex_commits_iff_allowed debugEnv (demoBar 500) 3).2
      ⟨rfl, by decide, by decide⟩⟩

/-- C3 as the claim states it fails: insert a tab, select it, disable it; the bar
keeps `currentIndex == 0` although tab 0 is now disabled.  It also fails after
insert, select, `removeTab(0)`: `currentIndex == 0` on a bar without tabs. -/
theorem C3_disabled_tab_stays_current :
    (∃ s : FancyTabBar,
      runOps debugEnv [.insertTab 0 0 "Build" true, .setCurrentIndex 0, .setTabEnabled 0 false]
        (emptyBar 500) = some s ∧
      s.m_currentIndex = 0 ∧ s.tabAt 0 = some { newTab 0 "Build" true with enabled := false } ∧
      currentIsNoneOrEnabled s = false) ∧
    (∃ s : FancyTabBar,
      runOps debugEnv [.insertTab 0 0 "Build" true, .setCurrentIndex 0, .removeTab 0]
        (emptyBar 500) = some s ∧
      s.m_currentIndex = 0 ∧ s.tabAt 0 = none ∧ currentIsNoneOrEnabled s = false) :=
  ⟨⟨_, rfl, rfl, rfl, rfl⟩, ⟨_, rfl, rfl, rfl, rfl⟩⟩

/-- C3, amended: in every state reached from the empty bar by public operations
among which `setTabEnabled(i, false)` is never applied to the current tab and
`removeTab(k)` only with nothing selected or `k > currentIndex`, `currentIndex`
is -1 or the index of an existing tab whose enabled flag is true; and on every
bar with a valid `currentIndex`, `setTabEnabled(currentIndex, false)` has a
defined result that keeps `currentIndex` on the tab it disables. -/
theorem C3_current_is_none_or_enabled (env : Env) :
    (∀ (height : Nat) (ops : List Op) (s : FancyTabBar),
      runOpsWhere env keepsSelectionEnabled ops (emptyBar height) = some s →
      (s.m_currentIndex = -1 ∨
        ∃ tab, s.tabAt s.m_currentIndex = some tab ∧ tab.enabled = true)) ∧
    (∀ (s : FancyTabBar) (tab : FancyTab), s.tabAt s.m_currentIndex = some tab →
      ∃ (s1 : FancyTabBar) (trace : List Call),
        setTabEnabled env s.m_currentIndex false s = some (s1, trace) ∧
        s1.m_currentIndex = s.m_currentIndex ∧
        s1.tabAt s1.m_currentIndex = some { tab with enabled := false } ∧
        currentIsNoneOrEnabled s1 = false) :=
  ⟨fun height ops s hrun =>
     (currentIsNoneOrEnabled_iff s).mp (runOpsWhere_keeps env ops (emptyBar height) s rfl hrun),
   fun s tab hcur => setTabEnabled_false_on_current env s tab hcur⟩

/-- C3 at a concrete run (`selectionRun`, which removes a tab behind the current
one): the run is defined and ends with an enabled current tab; disabling that
tab afterwards keeps it current. -/
theorem C3_run_keeps_enabled_selection :
    ∃ s : FancyTabBar,
      runOpsWhere debugEnv keepsSelectionEnabled selectionRun (emptyBar 500) = some s ∧
      (s.m_currentIndex = -1 ∨
        ∃ tab, s.tabAt s.m_currentIndex = some tab ∧ tab.enabled = true) ∧
      ∃ s1 : FancyTabBar, ∃ trace : List Call,
        setTabEnabled debugEnv s.m_currentIndex false s = some (s1, trace) ∧
        s1.m_currentIndex = s.m_currentIndex ∧ currentIsNoneOrEnabled s1 = false := by
  cases h : runOpsWhere debugEnv keepsSelectionEnabled selectionRun (emptyBar 500) with
  | none => exact absurd h (by decide)
  | some s =>
    have hinv := (C3_current_is_none_or_enabled debugEnv).1 500 selectionRun s h
    have hm1 : s.m_currentIndex ≠ -1 := by
      intro hc
      have : (runOpsWhere debugEnv keepsSelectionEnabled selectionRun (emptyBar 500)).map
          (fun b => b.m_currentIndex) = some 2 := by decide
      rw [h] at this
      simp only [Option.map_some', Option.some.injEq] at this
      omega
    rcases hinv with hc | ⟨tab, ht, hte⟩
    · exact absurd hc hm1
    · obtain ⟨s1, trace, hrun, hcur, _, hbad⟩ :=
        (C3_current_is_none_or_enabled debugEnv).2 s tab ht
      exact ⟨s, rfl, Or.inr ⟨tab, ht, hte⟩, s1, trace, hrun, hcur, hbad⟩

/-- C4 at its failing input: `insertTab(0)`, `setCurrentIndex(0)`, `removeTab(0)`
ends with `currentIndex == 0` on a bar without tabs, and `insertTab(0)`, a pointer
move over the tab, `removeTab(0)` ends with `hoverIndex == 0` on a bar without
tabs: neither index is -1 or inside `[0, count)`. -/
theorem C4_removeTab_leaves_stale_indices :
    (∃ s : FancyTabBar,
      runOps debugEnv [.insertTab 0 0 "Build" true, .setCurrentIndex 0, .removeTab 0]
        (emptyBar 500) = some s ∧
      s.m_currentIndex = 0 ∧ s.count = 0 ∧ noneOrValid s s.m_currentIndex = false) ∧
    (∃ s : FancyTabBar,
      runOps debugEnv [.insertTab 0 0 "Build" true, .mouseMove ⟨5, 10⟩, .removeTab 0]
        (emptyBar 500) = some s ∧
      s.m_hoverIndex = 0 ∧ s.count = 0 ∧ noneOrValid s s.m_hoverIndex = false) :=
  ⟨⟨_, rfl, rfl, rfl, rfl⟩, ⟨_, rfl, rfl, rfl, rfl⟩⟩

/-- C5: the logical index reached by the skip-hidden walk at a visible position
`v` below the number of visible tabs is a visible tab with `visibleIndex` equal
to `v`, and the walk at position `visibleIndex(l)` of a visible tab `l` yields `l`. -/
theorem C5_visible_logical_round_trip (s : FancyTabBar) :
    (∀ v : Int, 0 ≤ v → v < visibleCount s.m_tabs →
      ∃ (l : Int) (tab : FancyTab), logicalIndexAt s v = some l ∧ s.tabAt l = some tab ∧
        tab.visible = true ∧ visibleIndex s l = v) ∧
    (∀ (l : Int) (tab : FancyTab), s.tabAt l = some tab → tab.visible = true →
      logicalIndexAt s (visibleIndex s l) = some l) := by
  constructor
  · intro v h0 h1
    obtain ⟨k, tab, hk, hvis, hcnt, hloop⟩ := hitLoop_eq_exists v s.m_tabs 0 0 h0 (by omega)
    have hlen : k < s.m_tabs.length := (List.getElem?_eq_some_iff.mp hk).1
    refine ⟨k, tab, ?_, ?_, hvis, ?_⟩
    · simp [logicalIndexAt, hloop]
    · simp [FancyTabBar.tabAt, hk]
    · rw [visibleIndex_eq s k (le_of_lt hlen)]; omega
  · intro l tab hl hvis
    obtain ⟨k, rfl, hk, hlen⟩ := tabAt_some s l tab hl
    have hvi := visibleIndex_eq s k (le_of_lt hlen)
    have := hitLoop_first (fun c => c == visibleIndex s k) s.m_tabs 0 0 k tab hk hvis
      (by simp [hvi])
      (by
        intro j tj hj hjt hjv
        have := visibleCount_take_lt s.m_tabs j k tj hj hjt hjv
        simp [hvi]; omega)
    simp [logicalIndexAt, this]

/-- C5 at the bar with "Debug" hidden: visible position 1 is logical index 2,
and back. -/
theorem C5_round_trip_with_hidden_tab :
    logicalIndexAt (hiddenDebugBar 500) (visibleIndex (hiddenDebugBar 500) 2) = some 2 ∧
    visibleIndex (hiddenDebugBar 500) 2 = 1 :=
  ⟨(C5_visible_logical_round_trip (hiddenDebugBar 500)).2 2 (newTab 2 "Help" false)
      (by decide) (by decide), by decide⟩

/-- C6 at its failing input: on the scenario bar the rectangle of "Build" spans
the columns 0 to 69, so its 16 rightmost columns are 54 to 69; a left click at
x = 53 is inside the rectangle and outside those columns, yet it is handled as a
menu-arrow click (`menuTriggered(0, event)`, selection unchanged), while the
click at x = 52 selects the tab. -/
theorem C6_click_at_17th_column_opens_menu :
    tabRect demoFm (demoBar 500) (visibleIndex (demoBar 500) 0) = ⟨0, 0, 70, 52⟩ ∧
    (tabRect demoFm (demoBar 500) (visibleIndex (demoBar 500) 0)).contains ⟨53, 10⟩ = true ∧
    ¬ ((tabRect demoFm (demoBar 500) 0).x + (tabRect demoFm (demoBar 500) 0).width
        - kMenuButtonWidth ≤ 53) ∧
    mousePressEvent debugEnv ⟨⟨53, 10⟩, .LeftButton⟩ (demoBar 500)
      = some (demoBar 500, [.menuTriggered 0 ⟨⟨53, 10⟩, .LeftButton⟩]) ∧
    mousePressEvent debugEnv ⟨⟨52, 10⟩, .LeftButton⟩ (demoBar 500)
      = some ({ demoBar 500 with m_currentIndex := 0 }, commitTrace 0) := by
  decide

/-- C7: a right click has a defined result, leaves the whole bar unchanged and
issues exactly one call, `menuTriggered(idx, event)`, where `idx` is the logical
index of the visible tab whose rectangle contains the position, whatever the
display mode and the flags of the tab, and -1 when no visible tab's rectangle
contains it. -/
theorem C7_right_click_requests_menu_only (env : Env) (s : FancyTabBar) (pos : QPoint) :
    ∃ idx : Int,
      mousePressEvent env ⟨pos, .RightButton⟩ s
        = some (s, [.menuTriggered idx ⟨pos, .RightButton⟩]) ∧
      (∀ (i : Int) (tab : FancyTab), s.tabAt i = some tab → tab.visible = true →
        (tabRect env.fm s (visibleIndex s i)).contains pos = true → idx = i) ∧
      ((∀ (i : Int) (tab : FancyTab), s.tabAt i = some tab → tab.visible = true →
        (tabRect env.fm s (visibleIndex s i)).contains pos = false) → idx = -1) := by
  by_cases hex : ∃ (i : Int) (tab : FancyTab), s.tabAt i = some tab ∧ tab.visible = true ∧
      (tabRect env.fm s (visibleIndex s i)).contains pos = true
  · obtain ⟨i, tab, hi, hvis, hin⟩ := hex
    have hwalk := hitTest_of_contains env.fm s i tab pos hi hvis hin
    refine ⟨i, ?_, ?_, ?_⟩
    · unfold mousePressEvent
      simp only [hwalk, isTabEnabled_of_tabAt env s i tab hi, hi]
      simp
    · intro j tj hj hjv hjin
      have := hitTest_of_contains env.fm s j tj pos hj hjv hjin
      rw [hwalk] at this
      simp only [Prod.mk.injEq, Option.some.injEq] at this
      exact this.1
    · intro hall
      have := hall i tab hi hvis
      rw [hin] at this
      simp at this
  · have hout : ∀ (i : Int) (tab : FancyTab), s.tabAt i = some tab → tab.visible = true →
        (tabRect env.fm s (visibleIndex s i)).contains pos = false := by
      intro i tab hi hvis
      by_contra hc
      simp only [Bool.not_eq_false] at hc
      exact hex ⟨i, tab, hi, hvis, hc⟩
    have hwalk := hitTest_of_outside env.fm s pos hout
    refine ⟨-1, ?_, ?_, ?_⟩
    · unfold mousePressEvent
      simp [hwalk]
    · intro j tj hj hjv hjin
      rw [hout j tj hj hjv] at hjin
      simp at hjin
    · intro _; rfl

/-- C7 at the scenario bar: a right click at (60, 10), inside the menu-arrow
zone of "Build", asks for the menu of tab 0 and changes nothing. -/
theorem C7_right_click_on_build :
    ∃ idx : Int,
      mousePressEvent debugEnv ⟨⟨60, 10⟩, .RightButton⟩ (demoBar 500)
        = some (demoBar 500, [.menuTriggered idx ⟨⟨60, 10⟩, .RightButton⟩]) ∧ idx = 0 := by
  obtain ⟨idx, hpress, hinside, _⟩ :=
    C7_right_click_requests_menu_only debugEnv (demoBar 500) ⟨60, 10⟩
  exact ⟨idx, hpress, hinside 0 (newTab 0 "Build" true) (by decide) (by decide) (by decide)⟩

/-- C8: a second pointer move at the same position returns the bar exactly as
the first move left it and issues no call, so no `fadeIn` and no `fadeOut`. -/
theorem C8_repeated_move_is_silent (env : Env) (s : FancyTabBar) (p : QPoint) :
    mouseMoveEvent env p (mouseMoveEvent env p s).1 = ((mouseMoveEvent env p s).1, []) ∧
    fadesOf (mouseMoveEvent env p (mouseMoveEvent env p s).1).2 = [] := by
  obtain ⟨htext, hvis, hmode, hheight, _, hhover⟩ := mouseMoveEvent_frame env p s
  have hwalk := hitTest_congr env.fm s (mouseMoveEvent env p s).1 p htext hvis hmode hheight
  have hsame : mouseMoveEvent env p (mouseMoveEvent env p s).1 = ((mouseMoveEvent env p s).1, []) := by
    generalize (mouseMoveEvent env p s).1 = s1 at *
    unfold mouseMoveEvent
    simp only [hwalk, hhover, if_true]
  rw [hsame]
  exact ⟨rfl, rfl⟩

/-- C8 at the scenario bar: the first move to (5, 60) fades "Debug" in, the
second move there does nothing. -/
theorem C8_second_move_over_debug :
    (mouseMoveEvent debugEnv ⟨5, 60⟩ (demoBar 500)).2 = [.fadeIn 1] ∧
    mouseMoveEvent debugEnv ⟨5, 60⟩ (mouseMoveEvent debugEnv ⟨5, 60⟩ (demoBar 500)).1
      = ((mouseMoveEvent debugEnv ⟨5, 60⟩ (demoBar 500)).1, []) :=
  ⟨by decide, (C8_repeated_move_is_silent debugEnv (demoBar 500) ⟨5, 60⟩).1⟩

/-- C9 as the claim states it fails: with "Debug" hidden and a bar 100 px high,
the three preferred heights (156 px) exceed the bar, two tabs are visible, and
`tabRect(0)` is 33 = 100 / 3 px high, not 100 / 2. -/
theorem C9_hidden_tab_counts_in_divisor :
    (tabSizeHint demoFm (hiddenDebugBar 100) false).height * (hiddenDebugBar 100).count
        > (hiddenDebugBar 100).height ∧
    visibleCount (hiddenDebugBar 100).m_tabs = 2 ∧
    (tabRect demoFm (hiddenDebugBar 100) 0).height = 33 ∧
    (tabRect demoFm (hiddenDebugBar 100) 0).height
      ≠ ((hiddenDebugBar 100).height : Int) / visibleCount (hiddenDebugBar 100).m_tabs := by
  decide

/-- C9, amended: for every tab list and bar height, if the preferred tab height
times the number of tabs (hidden ones included) exceeds the bar height, every
`tabRect(v)` has height `height / count` with `count` the number of all tabs,
otherwise the preferred tab height; when no tab is hidden `count` is the number
of visible tabs. -/
theorem C9_tabRect_height_divides_by_count (fm : FontMetrics) (s : FancyTabBar) (v : Int) :
    ((tabSizeHint fm s false).height * s.count > s.height →
      (tabRect fm s v).height = (s.height : Int) / s.count) ∧
    (¬ ((tabSizeHint fm s false).height * s.count > s.height) →
      (tabRect fm s v).height = (tabSizeHint fm s false).height) ∧
    ((∀ tab ∈ s.m_tabs, tab.visible = true) → visibleCount s.m_tabs = s.count) :=
  ⟨tabRect_height_of_compressed fm s v, tabRect_height_of_fitting fm s v,
   visibleCount_of_all_visible s.m_tabs⟩

/-- C9 at the scenario bar squeezed to 100 px, no tab hidden: the height is
100 / 3 and the divisor is the number of visible tabs. -/
theorem C9_all_visible_in_100_px :
    (tabRect demoFm (demoBar 100) 1).height = ((demoBar 100).height : Int) / (demoBar 100).count ∧
    visibleCount (demoBar 100).m_tabs = (demoBar 100).count :=
  ⟨(C9_tabRect_height_divides_by_count demoFm (demoBar 100) 1).1 (by decide),
   (C9_tabRect_height_divides_by_count demoFm (demoBar 100) 1).2.2 (by decide)⟩

/-- C10: for a bar in icon+text mode holding exactly three tabs, all visible,
and lower than three preferred tab heights, `tabRect(0)`, `tabRect(1)` and
`tabRect(2)` each have height `height / 3`, the first starts at y = 0, each next
one starts where the previous one ends, no pixel lies in two of them, and all
three lie within `[0, height)`. -/
theorem C10_three_tabs_tile_the_bar (fm : FontMetrics) (s : FancyTabBar)
    (t0 t1 t2 : FancyTab) (htabs : s.m_tabs = [t0, t1, t2])
    (_hvis : t0.visible = true ∧ t1.visible = true ∧ t2.visible = true)
    (_hmode : s.m_iconsOnly = false)
    (hsmall : (s.height : Int) < 3 * (tabSizeHint fm s false).height) :
    ((tabRect fm s 0).height = (s.height : Int) / 3 ∧
      (tabRect fm s 1).height = (s.height : Int) / 3 ∧
      (tabRect fm s 2).height = (s.height : Int) / 3) ∧
    ((tabRect fm s 0).y = 0 ∧
      (tabRect fm s 1).y = (tabRect fm s 0).y + (tabRect fm s 0).height ∧
      (tabRect fm s 2).y = (tabRect fm s 1).y + (tabRect fm s 1).height) ∧
    (∀ (a b : Int) (p : QPoint), (tabRect fm s a).contains p = true →
      (tabRect fm s b).contains p = true → a = b) ∧
    (∀ v : Int, 0 ≤ v → v ≤ 2 →
      0 ≤ (tabRect fm s v).y ∧ (tabRect fm s v).y + (tabRect fm s v).height ≤ s.height) := by
  have hcount : s.count = 3 := by simp [FancyTabBar.count, htabs]
  have hcompress : (tabSizeHint fm s false).height * s.count > s.height := by
    rw [hcount]; omega
  have hh : ∀ v : Int, (tabRect fm s v).height = (s.height : Int) / 3 := by
    intro v
    have := tabRect_height_of_compressed fm s v hcompress
    rw [hcount] at this
    exact this
  have hy : ∀ v : Int, (tabRect fm s v).y = v * ((s.height : Int) / 3) := by
    intro v
    rw [tabRect_y, hh]
  refine ⟨⟨hh 0, hh 1, hh 2⟩, ⟨?_, ?_, ?_⟩, ?_, ?_⟩
  · rw [hy]; ring
  · rw [hy, hy, hh]; ring
  · rw [hy, hy, hh]; ring
  · intro a b p ha hb
    exact tabRect_disjoint fm s a b p ha hb
  · intro v h0 h2
    rw [hy, hh]
    have hq : 0 ≤ (s.height : Int) / 3 := Int.ediv_nonneg (Int.ofNat_nonneg _) (by decide)
    have hm : (s.height : Int) / 3 * 3 ≤ s.height := Int.ediv_mul_le _ (by decide)
    constructor
    · exact Int.mul_nonneg h0 hq
    · nlinarith

/-- C10 at the scenario bar squeezed to 100 px: three rectangles 33 px high at
y = 0, 33 and 66. -/
theorem C10_three_tabs_in_100_px :
    ((tabRect demoFm (demoBar 100) 0).height = 33 ∧ (tabRect demoFm (demoBar 100) 1).y = 33 ∧
      (tabRect demoFm (demoBar 100) 2).y = 66) ∧
    (∀ v : Int, 0 ≤ v → v ≤ 2 →
      0 ≤ (tabRect demoFm (demoBar 100) v).y ∧
      (tabRect demoFm (demoBar 100) v).y + (tabRect demoFm (demoBar 100) v).height
        ≤ (demoBar 100).height) :=
  ⟨by decide,
   (C10_three_tabs_tile_the_bar demoFm (demoBar 100) (newTab 0 "Build" true)
      (newTab 1 "Debug" false) (newTab 2 "Help" false) rfl (by decide) rfl (by decide)).2.2.2⟩

/-- C11 as the claim states it fails: with "Debug" hidden two tabs are visible,
yet `sizeHint()` is 156 = 3 * 52 high and `minimumSizeHint()` is 60 = 3 * 20
high, not 2 * 52 and 2 * 20. -/
theorem C11_hidden_tab_counts_in_size_hints :
    visibleCount (hiddenDebugBar 500).m_tabs = 2 ∧
    (tabSizeHint demoFm (hiddenDebugBar 500) false).height = 52 ∧
    (tabSizeHint demoFm (hiddenDebugBar 500) true).height = 20 ∧
    (sizeHint demoFm (hiddenDebugBar 500)).height = 156 ∧
    (minimumSizeHint demoFm (hiddenDebugBar 500)).height = 60 ∧
    (sizeHint demoFm (hiddenDebugBar 500)).height
      ≠ (tabSizeHint demoFm (hiddenDebugBar 500) false).height
          * visibleCount (hiddenDebugBar 500).m_tabs ∧
    (minimumSizeHint demoFm (hiddenDebugBar 500)).height
      ≠ (tabSizeHint demoFm (hiddenDebugBar 500) true).height
          * visibleCount (hiddenDebugBar 500).m_tabs := by
  decide

/-- C11, amended: for every tab list and both display modes, `sizeHint()` and
`minimumSizeHint()` have the preferred tab width, and their height is the
per-tab height (preferred, respectively minimal) times the number of all tabs,
hidden ones included; when no tab is hidden that is the number of visible tabs. -/
theorem C11_size_hints_multiply_by_count (fm : FontMetrics) (s : FancyTabBar) :
    (sizeHint fm s).width = (tabSizeHint fm s false).width ∧
    (sizeHint fm s).height = (tabSizeHint fm s false).height * s.count ∧
    (minimumSizeHint fm s).width = (tabSizeHint fm s false).width ∧
    (minimumSizeHint fm s).height = (tabSizeHint fm s true).height * s.count ∧
    ((∀ tab ∈ s.m_tabs, tab.visible = true) → s.count = visibleCount s.m_tabs) := by
  refine ⟨rfl, rfl, ?_, rfl, fun h => (visibleCount_of_all_visible s.m_tabs h).symm⟩
  unfold minimumSizeHint tabSizeHint
  by_cases hmode : s.m_iconsOnly = true <;> simp [hmode]

/-- C11 at the scenario bar, no tab hidden: 70 wide, 156 and 60 high, three
visible tabs. -/
theorem C11_size_hints_of_scenario_bar :
    (sizeHint demoFm (demoBar 500)).width = 70 ∧
    (sizeHint demoFm (demoBar 500)).height = 52 * visibleCount (demoBar 500).m_tabs ∧
    (minimumSizeHint demoFm (demoBar 500)).height = 20 * visibleCount (demoBar 500).m_tabs := by
  have h := C11_size_hints_multiply_by_count demoFm (demoBar 500)
  have hcount := h.2.2.2.2 (by decide)
  refine ⟨by decide, ?_, ?_⟩
  · rw [h.2.1, hcount]; rfl
  · rw [h.2.2.2.1, hcount]; rfl

/-- C12: for a bar with a selected tab and an insertion position `k` with
`0 <= k <= count`, `insertTab(k, ...)` has a defined result, issues only
`updateGeometry()` (no signal), moves `currentIndex` up by one when
`currentIndex >= k` and leaves it when `currentIndex < k`, and the entry at the
new `currentIndex` is the entry that was selected before; the new tab sits at `k`. -/
theorem C12_insertTab_keeps_selected_entry (s : FancyTabBar) (k : Int) (icon : Nat)
    (label : String) (hasMenu : Bool) (tab : FancyTab)
    (hcur : s.tabAt s.m_currentIndex = some tab) (hk : 0 ≤ k ∧ k ≤ s.count) :
    ∃ (s1 : FancyTabBar) (trace : List Call),
      insertTab k icon label hasMenu s = some (s1, trace) ∧
      trace = [.updateGeometry] ∧ signalsOf trace = [] ∧
      (s.m_currentIndex ≥ k → s1.m_currentIndex = s.m_currentIndex + 1) ∧
      (s.m_currentIndex < k → s1.m_currentIndex = s.m_currentIndex) ∧
      s1.tabAt s1.m_currentIndex = some tab ∧
      s1.tabAt k = some (newTab icon label hasMenu) ∧
      s1.count = s.count + 1 := by
  have hrun : insertTab k icon label hasMenu s
      = some ({ s with
                m_tabs := s.m_tabs.take k.toNat ++ newTab icon label hasMenu :: s.m_tabs.drop k.toNat,
                m_currentIndex :=
                  if s.m_currentIndex ≥ k then s.m_currentIndex + 1 else s.m_currentIndex },
              [.updateGeometry]) := by
    unfold insertTab
    rw [if_pos hk]
  have hkl : k.toNat ≤ s.m_tabs.length := by
    have := hk.2; unfold FancyTabBar.count at this; omega
  refine ⟨_, _, hrun, rfl, rfl, ?_, ?_, ?_, ?_, ?_⟩
  · intro h; simp only [if_pos h]
  · intro h; simp only [if_neg (not_le.mpr h)]
  · exact insertTab_tabAt k icon label hasMenu s _ _ hrun _ tab hcur
  · unfold FancyTabBar.tabAt
    simp only [if_pos hk.1]
    rw [List.getElem?_append_right (by simp [hkl])]
    simp [hkl]
  · unfold FancyTabBar.count
    simp only [List.length_append, List.length_take, List.length_cons, List.length_drop]
    omega

/-- C12 at the scenario bar with "Debug" current: inserting at 0 moves
`currentIndex` from 1 to 2 and "Debug" is still the current entry. -/
theorem C12_insert_before_current :
    ∃ (s1 : FancyTabBar) (trace : List Call),
      insertTab 0 3 "Edit" false (debugCurrentBar 500) = some (s1, trace) ∧
      s1.m_currentIndex = 2 ∧ s1.tabAt s1.m_currentIndex = some (newTab 1 "Debug" false) ∧
      signalsOf trace = [] := by
  obtain ⟨s1, trace, hrun, _, hsig, hup, _, htab, _, _⟩ :=
    C12_insertTab_keeps_selected_entry (debugCurrentBar 500) 0 3 "Edit" false
      (newTab 1 "Debug" false) (by decide) (by decide)
  exact ⟨s1, trace, hrun, hup (by decide), htab, hsig⟩

/-- C13 at its failing input: after `setCurrentIndex(1)` and
`setTabVisible(1, false)` on the scenario bar, one repaint issues
`paintTab(0, 0, Off)`, `paintTab(2, 1, Off)` and then `paintTab(1, -1, On)`: the
hidden current tab passes the `validIndex` guard and is painted, at slot -1, into
the rectangle at y = -52. -/
theorem C13_hidden_current_tab_is_painted_at_slot_minus_one :
    runOps debugEnv
      [.insertTab 0 0 "Build" true, .insertTab 1 1 "Debug" false, .insertTab 2 2 "Help" false,
       .setCurrentIndex 1, .setTabVisible 1 false] (emptyBar 500)
      = some (hiddenCurrentBar 500) ∧
    (hiddenCurrentBar 500).validIndex (hiddenCurrentBar 500).m_currentIndex = true ∧
    ((hiddenCurrentBar 500).tabAt 1).map (fun tab => tab.visible) = some false ∧
    visibleIndex (hiddenCurrentBar 500) 1 = 1 ∧
    paintEvent (hiddenCurrentBar 500)
      = [{ tabIndex := 0, visibleIndex := 0, iconOn := false },
         { tabIndex := 2, visibleIndex := 1, iconOn := false },
         { tabIndex := 1, visibleIndex := -1, iconOn := true }] ∧
    paintTabRect demoFm (hiddenCurrentBar 500) { tabIndex := 1, visibleIndex := -1, iconOn := true }
      = some ⟨0, -52, 70, 52⟩ := by
  decide

/-- C14: for every tab list, the empty one included, every visible index
argument and every bar height `H >= 0`, `tabRect` returns a rectangle: the
compression branch is entered only with `count > 0`, so `H / count` never divides
by zero, and the rectangle has non-negative height.  Its `y` is the `int` product,
within `[-2^31, 2^31)`; at `H = height()` the rectangle is `tabRect(visibleIndex)`
whenever the exact product fits an `int`, in particular for every slot
`0 <= visibleIndex <= count` of a bar lower than `2^31`. -/
theorem C14_tabRect_total (fm : FontMetrics) (s : FancyTabBar) (H v : Int) (hH : 0 ≤ H) :
    ((tabSizeHint fm s false).height * s.count > H → 0 < s.count) ∧
    ∃ r : QRect, tabRectChecked fm s H v = some r ∧ 0 ≤ r.height ∧
      (-2147483648 ≤ r.y ∧ r.y < 2147483648) ∧
      (H = s.height → -2147483648 ≤ v * r.height → v * r.height < 2147483648 →
        r = tabRect fm s v) ∧
      (H = s.height → H < 2147483648 → 0 ≤ v → v ≤ s.count → r = tabRect fm s v) := by
  have hsh := tabSizeHint_height_nonneg fm s
  have hc0 : 0 ≤ s.count := by unfold FancyTabBar.count; exact Int.ofNat_nonneg _
  have hpos : (tabSizeHint fm s false).height * s.count > H → 0 < s.count := by
    intro h
    rcases lt_or_eq_of_le hc0 with hlt | heq
    · exact hlt
    · rw [← heq] at h; simp at h; omega
  have hslot : H = s.height → H < 2147483648 → 0 ≤ v → v ≤ s.count →
      -2147483648 ≤ v * (tabRect fm s v).height ∧ v * (tabRect fm s v).height < 2147483648 := by
    intro hHs hlt h0 h1
    have := tabRect_slot_within_height fm s v h0 h1
    rw [tabRect_y] at this
    omega
  refine ⟨hpos, ?_⟩
  by_cases hcomp : (tabSizeHint fm s false).height * s.count > H
  · have hne : s.count ≠ 0 := ne_of_gt (hpos hcomp)
    have hexact : H = s.height → -2147483648 ≤ v * Int.tdiv H s.count →
        v * Int.tdiv H s.count < 2147483648 →
        ({ x := 0, y := wrapInt32 (v * Int.tdiv H s.count),
           width := (tabSizeHint fm s false).width, height := Int.tdiv H s.count } : QRect)
          = tabRect fm s v := by
      intro hHs hlo hhi
      subst hHs
      rw [wrapInt32_of_in_range _ hlo hhi]
      simp only [tabRect, if_pos hcomp]
    refine ⟨{ x := 0, y := wrapInt32 (v * Int.tdiv H s.count),
              width := (tabSizeHint fm s false).width, height := Int.tdiv H s.count },
            ?_, ?_, wrapInt32_in_range _, hexact, ?_⟩
    · simp only [tabRectChecked, if_pos hcomp, if_neg hne]
    · exact Int.tdiv_nonneg hH hc0
    · intro hHs hlt h0 h1
      have hr := hslot hHs hlt h0 h1
      have hht : (tabRect fm s v).height = Int.tdiv H s.count := by
        subst hHs
        simp only [tabRect, if_pos hcomp]
      rw [hht] at hr
      exact hexact hHs hr.1 hr.2
  · have hexact : H = s.height → -2147483648 ≤ v * (tabSizeHint fm s false).height →
        v * (tabSizeHint fm s false).height < 2147483648 →
        ({ x := 0, y := wrapInt32 (v * (tabSizeHint fm s false).height),
           width := (tabSizeHint fm s false).width,
           height := (tabSizeHint fm s false).height } : QRect) = tabRect fm s v := by
      intro hHs hlo hhi
      subst hHs
      rw [wrapInt32_of_in_range _ hlo hhi]
      simp only [tabRect, if_neg hcomp]
    refine ⟨{ x := 0, y := wrapInt32 (v * (tabSizeHint fm s false).height),
              width := (tabSizeHint fm s false).width,
              height := (tabSizeHint fm s false).height }, ?_, hsh, wrapInt32_in_range _,
            hexact, ?_⟩
    · simp only [tabRectChecked, if_neg hcomp]
    · intro hHs hlt h0 h1
      have hr := hslot hHs hlt h0 h1
      have hht : (tabRect fm s v).height = (tabSizeHint fm s false).height := by
        subst hHs
        simp only [tabRect, if_neg hcomp]
      rw [hht] at hr
      exact hexact hHs hr.1 hr.2

/-- C14 at the empty bar of height 0, at the scenario bar squeezed to 100 px, and
at the scenario bar with the argument 50000000, where the `int` product wraps to
-1694967296. -/
theorem C14_tabRect_of_empty_and_squeezed_bar :
    tabRectChecked demoFm (emptyBar 0) 0 5 = some (tabRect demoFm (emptyBar 0) 5) ∧
    tabRectChecked demoFm (demoBar 100) 100 2 = some ⟨0, 66, 70, 33⟩ ∧
    tabRectChecked demoFm (demoBar 500) 500 50000000 = some ⟨0, -1694967296, 70, 52⟩ ∧
    (∃ r : QRect, tabRectChecked demoFm (demoBar 500) 500 50000000 = some r ∧ 0 ≤ r.height ∧
      (-2147483648 ≤ r.y ∧ r.y < 2147483648)) := by
  obtain ⟨r, hr, hh, hy, _, _⟩ := (C14_tabRect_total demoFm (demoBar 500) 500 50000000 (by decide)).2
  exact ⟨by decide, by decide, by decide, r, hr, hh, hy⟩

end Fancy
